import Mathlib

/-!
# zkill_history: shard synchronisation and dispatch

A shallow embedding of `history.go`.  The file system (its files, and which
file each path names), the remote HTTP endpoints, the JSON decoder and the
order in which Go ranges over a map are the environment of the program: they
appear as explicit arguments (or as fields of `SyncEnv` and `LoadEnv`), so that
every statement below holds for each of their behaviours.  A rate limiter that
was made (`rl.Take()`, `limiter.Take()`) only delays a request; making the one
of the dispatcher panics at limit 0.
-/

namespace ZkillHistory

/-! ## Constants and paths -/

/-- The constant `totalsApi`. -/
def totalsApi : String := "https://zkillboard.com/api/history/totals.json"

/-- The result of `fmt.Sprintf(historyFormat, date)`. -/
def historyFormat (date : String) : String :=
  "https://zkillboard.com/api/history/" ++ date ++ ".json"

/-- The constant `storageDirectory`. -/
def storageDirectory : String := "./json"

/-- The elements of a path: the pieces between the separators. -/
def splitSlash : List Char → List (List Char)
  | [] => [[]]
  | c :: cs =>
    match splitSlash cs with
    | [] => [[c]]
    | x :: xs => if c = '/' then [] :: x :: xs else (c :: x) :: xs

/-- One element of `filepath.Clean`: `out` holds the elements kept so far,
the last one first.  Empty and `.` elements are dropped, `..` removes the
last kept element when there is one to remove, is kept in an unrooted path
that has nothing to remove, and is dropped at the root. -/
def cleanStep (rooted : Bool) (out : List (List Char)) (e : List Char) : List (List Char) :=
  if e = [] ∨ e = ['.'] then out
  else if e = ['.', '.'] then
    match out with
    | [] => if rooted then [] else [e]
    | top :: rest => if top = ['.', '.'] then e :: out else rest
  else e :: out

/-- Go's `filepath.Clean` on a Unix path. -/
def filepathClean (path : String) : String :=
  if path = "" then "."
  else
    let rooted : Bool := path.data.head? = some '/'
    let out := (splitSlash path.data).foldl (cleanStep rooted) []
    let body := List.intercalate ['/'] out.reverse
    if rooted then String.mk ('/' :: body)
    else if body = [] then "." else String.mk body

/-- Go's `filepath.Join` on Unix: the elements from the first non-empty one
on are joined by the separator and the result is cleaned. -/
def filepathJoin : List String → String
  | [] => ""
  | e :: rest =>
    if e = "" then filepathJoin rest
    else filepathClean (String.intercalate "/" (e :: rest))

/-- The path `filepath.Join(storageDirectory, name)`. -/
def storagePath (name : String) : String := filepathJoin [storageDirectory, name]

/-- The path of the shard of a partition key:
`filepath.Join(storageDirectory, fmt.Sprintf("%s.json", date))`. -/
def shardPath (date : String) : String := storagePath (date ++ ".json")

/-! ## Data model -/

/-- The content of a file or of a response body. -/
abbrev Bytes := List UInt8

/-- A value of Go's `int32`. -/
abbrev RecordId := { i : Int // -2147483648 ≤ i ∧ i < 2147483648 }

/-- A `map[int32]string`: record id to record hash. -/
abbrev Shard := AList (fun _ : RecordId => String)

/-- A `map[string]int`: partition key to expected record count. -/
abbrev TotalsIndex := AList (fun _ : String => Int)

/-- A `map[int]int`: status code to number of occurrences. -/
abbrev ResponseCodes := AList (fun _ : Int => Int)

/-- A file of the shard store.  `readable` says whether `os.Open` and the
reads that follow succeed on it. -/
structure File where
  content : Bytes
  readable : Bool
deriving DecidableEq, Repr

/-- The identity of a file of the file system, as opposed to the paths that
name it: two paths that differ as strings may name one file (`..` elements that
lead back into the working directory, links). -/
structure FileId where
  name : String
deriving DecidableEq, Repr

/-- The file system: the file, if any, at each file identity.  Which file a
path names is the name resolution of the operating system, an argument
`resolve : String → FileId` of the functions that open a path. -/
abbrev Store := FileId → Option File

/-- The errors the program returns. -/
inductive GoError
  | network (cause : String)
  | nonHappyStatus (code : Int)
  | bodyRead (cause : String)
  | json (cause : String)
  | fileOpen
  | fileWrite
  | fileClose
deriving DecidableEq, Repr

/-- What `http.Get` and the read of the body give for one request. -/
inductive HttpResult
  | failed (cause : String)
  | response (status : Int) (body : Except String Bytes)

/-- How a call of `ioutil.WriteFile` ends: it opens the file (creating or
truncating it), writes the data and closes the file, and each of the three
steps may fail.  `writeFailed n` is a write that failed after `n` bytes. -/
inductive WriteOutcome
  | ok
  | openFailed
  | writeFailed (n : Nat)
  | closeFailed
deriving DecidableEq, Repr

/-! ## Completeness validator -/

/-- The function `haveCorrectTotal`.  `resolve` says which file a path names,
`decodeShard` is `json.NewDecoder(br).Decode` into a `map[int32]string`. -/
def haveCorrectTotal (resolve : String → FileId) (decodeShard : Bytes → Except String Shard)
    (store : Store) (date : String) (count : Int) : Bool :=
  match store (resolve (shardPath date)) with
  | none => false
  | some jsonFile =>
    if jsonFile.readable then
      match decodeShard jsonFile.content with
      | .error _ => false
      | .ok totals => if (totals.entries.length : Int) = count then true else false
    else false


/-! ## Remote fetches and the shard writer -/

/-- The function `getUrlData`.  `httpGet url` is what `http.Get(url)` and
`ioutil.ReadAll` of the body give. -/
def getUrlData (httpGet : String → HttpResult) (url : String) : Except GoError Bytes :=
  match httpGet url with
  | .failed cause => .error (.network cause)
  | .response status body =>
    if status ≠ 200 then .error (.nonHappyStatus status)
    else
      match body with
      | .error cause => .error (.bodyRead cause)
      | .ok data => .ok data

/-- The function `getTotalsData`.  The error of `getUrlData` is assigned to
`err` and overwritten by the result of `json.Unmarshal` before it is read; when
the fetch fails `data` is `nil`, the empty byte slice.  `unmarshalTotals` is
`json.Unmarshal` into a `map[string]int`. -/
def getTotalsData (unmarshalTotals : Bytes → Except String TotalsIndex)
    (httpGet : String → HttpResult) : Except GoError TotalsIndex :=
  let data : Bytes :=
    match getUrlData httpGet totalsApi with
    | .ok d => d
    | .error _ => []
  match unmarshalTotals data with
  | .error cause => .error (.json cause)
  | .ok totals => .ok totals

/-- The store with the file `file` replaced. -/
def Store.set (store : Store) (file : FileId) (f : File) : Store :=
  fun p => if p = file then some f else store p

/-- The file that holds `content` at `file` once `ioutil.WriteFile` has opened
it: an existing file keeps its permissions, a new one is created with mode
0644, readable by its owner. -/
def writtenFile (store : Store) (file : FileId) (content : Bytes) : File :=
  match store file with
  | some f => { content := content, readable := f.readable }
  | none => { content := content, readable := true }

/-- Go's `ioutil.WriteFile(path, data, 0644)` ending as `outcome` says, where
`file` is the file that `path` names.  A failure to open leaves the store as it
was; once the file is open it has been created or truncated, and it holds what
was written before the failure. -/
def ioutilWriteFile (outcome : WriteOutcome) (store : Store) (file : FileId) (data : Bytes) :
    Except GoError Unit × Store :=
  match outcome with
  | .openFailed => (.error .fileOpen, store)
  | .writeFailed n => (.error .fileWrite, store.set file (writtenFile store file (data.take n)))
  | .closeFailed => (.error .fileClose, store.set file (writtenFile store file data))
  | .ok => (.ok (), store.set file (writtenFile store file data))

/-- The function `downloadSingleHistory`: the error it returns and the store
it leaves.  `resolve` says which file a path names, `writeOutcome path data`
how the write of `data` to `path` ends. -/
def downloadSingleHistory (resolve : String → FileId) (httpGet : String → HttpResult)
    (writeOutcome : String → Bytes → WriteOutcome) (store : Store) (date : String) :
    Except GoError Unit × Store :=
  match getUrlData httpGet (historyFormat date) with
  | .error err => (.error err, store)
  | .ok data =>
    ioutilWriteFile (writeOutcome (shardPath date) data) store (resolve (shardPath date)) data


/-! ## Shard synchroniser -/

/-- The environment of a synchronisation run: the name resolution of the file
system (which file each path names; the loop and its units create no directory
and no link, so it is the same throughout the run), the two JSON decoders, the remote when the totals are requested, the remote when the fetch units request
the histories, the outcome of the write of the unit of each key, whether the
storage root is missing and cannot be created, and the order in which `range`
visits the totals index (a permutation of its entries). -/
structure SyncEnv where
  resolve : String → FileId
  decodeShard : Bytes → Except String Shard
  unmarshalTotals : Bytes → Except String TotalsIndex
  httpTotals : String → HttpResult
  httpGet : String → HttpResult
  writeOutcome : String → String → Bytes → WriteOutcome
  storageRootFails : Bool
  rangeTotals : TotalsIndex → List (Sigma fun _ : String => Int)
  rangeTotals_perm : ∀ t, (rangeTotals t).Perm t.entries

/-- The state of the loop of `downloadTotalHistory` and of the units it has
launched: the store, the entries the loop has yet to visit, the keys of the
launched units that have not run yet, and the keys of the units that have run,
each with the error returned by `downloadSingleHistory`. -/
structure Sync where
  store : Store
  todo : List (Sigma fun _ : String => Int)
  pending : List String
  results : List (String × Except GoError Unit)

/-- What happens next: the loop visits its next entry, or the launched unit of
a key runs. -/
inductive Event
  | iterate
  | finish (date : String)

/-- One iteration of `for k, v := range totals`: the unit of `k` is launched
unless `haveCorrectTotal(k, v)`. -/
def loopIteration (env : SyncEnv) (s : Sync) : Sync :=
  match s.todo with
  | [] => s
  | ⟨k, v⟩ :: rest =>
    if haveCorrectTotal env.resolve env.decodeShard s.store k v then { s with todo := rest }
    else { s with todo := rest, pending := s.pending ++ [k] }

/-- The body of a launched unit: `downloadSingleHistory(date)`, and its
result logged. -/
def runUnit (env : SyncEnv) (date : String) (s : Sync) : Sync :=
  { s with
    store := (downloadSingleHistory env.resolve env.httpGet (env.writeOutcome date) s.store date).2
    pending := s.pending.erase date
    results := s.results ++
      [(date, (downloadSingleHistory env.resolve env.httpGet (env.writeOutcome date) s.store date).1)] }

/-- One event.  A unit that was not launched does not run. -/
def step (env : SyncEnv) (s : Sync) : Event → Sync
  | .iterate => loopIteration env s
  | .finish date => if date ∈ s.pending then runUnit env date s else s

/-- The loop runs to its end. -/
def finishLoop (env : SyncEnv) (s : Sync) : Sync :=
  (List.replicate s.todo.length Event.iterate).foldl (step env) s

/-- The call `wg.Wait()`: every launched unit that has not run yet runs. -/
def waitGroup (env : SyncEnv) (s : Sync) : Sync :=
  (s.pending.map Event.finish).foldl (step env) s

/-- How `downloadTotalHistory` ends. -/
inductive SyncExit
  | fatalTotals (err : GoError)
  | fatalStorage
  | complete
deriving DecidableEq, Repr

/-- What a run of `downloadTotalHistory` leaves. -/
structure SyncRun where
  exit : SyncExit
  store : Store
  results : List (String × Except GoError Unit)

/-- The function `downloadTotalHistory`.  The launched units run concurrently
with the loop: `sched` is the interleaving, any list of events; what it leaves
undone is done at the end (the rest of the loop, then `wg.Wait()`). -/
def downloadTotalHistory (env : SyncEnv) (sched : List Event) (store : Store) : SyncRun :=
  match getTotalsData env.unmarshalTotals env.httpTotals with
  | .error err => ⟨.fatalTotals err, store, []⟩
  | .ok totals =>
    if env.storageRootFails then ⟨.fatalStorage, store, []⟩
    else
      let s0 : Sync := ⟨store, env.rangeTotals totals, [], []⟩
      let s1 := sched.foldl (step env) s0
      let s2 := finishLoop env s1
      let s3 := waitGroup env s2
      ⟨.complete, s3.store, s3.results⟩


/-! ## Aggregator and dispatcher -/

/-- How the POST of one record ends. -/
inductive PostOutcome
  | networkError (cause : String)
  | status (code : Int)
deriving DecidableEq, Repr

/-- The environment of a dispatch run: the name resolution of the file system,
the JSON decoder, the outcome of the
POST of each record to a URL, and the order in which `range` visits a map of
records and the map of response codes (a permutation of the entries). -/
structure LoadEnv where
  resolve : String → FileId
  decodeShard : Bytes → Except String Shard
  post : String → RecordId → String → PostOutcome
  rangeShard : Shard → List (Sigma fun _ : RecordId => String)
  rangeShard_perm : ∀ m, (rangeShard m).Perm m.entries
  rangeCodes : ResponseCodes → List (Sigma fun _ : Int => Int)
  rangeCodes_perm : ∀ m, (rangeCodes m).Perm m.entries

/-- Arithmetic of Go's `int` (64 bits, two's complement). -/
def wrapInt (x : Int) : Int :=
  (x + 9223372036854775808) % 18446744073709551616 - 9223372036854775808

/-- The inner loop `for k, v := range totals { idhp[k] = v }`. -/
def mergeShard (env : LoadEnv) (idhp totals : Shard) : Shard :=
  (env.rangeShard totals).foldl (fun m e => m.insert e.1 e.2) idhp

/-- How the loop over the files ends: `log.Fatalf` on a file, or the merged
record space. -/
inductive MergeResult
  | fatal (name : String)
  | merged (idhp : Shard)

/-- The loop `for _, file := range files` of `loadHistoryIntoPodded`.
`log.Fatalf` ends the process. -/
def mergeFiles (env : LoadEnv) (store : Store) : List String → Shard → MergeResult
  | [], idhp => .merged idhp
  | name :: files, idhp =>
    match store (env.resolve (storagePath name)) with
    | none => .fatal name
    | some jsonFile =>
      if jsonFile.readable then
        match env.decodeShard jsonFile.content with
        | .error _ => .fatal name
        | .ok totals => mergeFiles env store files (mergeShard env idhp totals)
      else .fatal name

/-- The state of the dispatch loop: the records posted so far, the map
`responseCodes`, and the number of calls of `bar.Increment()`. -/
structure Dispatch where
  posts : List (RecordId × String)
  responseCodes : ResponseCodes
  increments : Nat

/-- The value `responseCodes[code]`: zero for a code that is not in the map. -/
def tally (responseCodes : ResponseCodes) (code : Int) : Int :=
  (responseCodes.lookup code).getD 0

/-- One iteration of `for id, hash := range idhp`: the record is posted; on an
error the loop continues with the next record, otherwise the status code is
tallied and the bar advances. -/
def dispatchRecord (env : LoadEnv) (poddedURL : String) (st : Dispatch)
    (e : Sigma fun _ : RecordId => String) : Dispatch :=
  match env.post poddedURL e.1 e.2 with
  | .networkError _ => { st with posts := st.posts ++ [(e.1, e.2)] }
  | .status code =>
    { posts := st.posts ++ [(e.1, e.2)]
      responseCodes := st.responseCodes.insert code (wrapInt (tally st.responseCodes code + 1))
      increments := st.increments + 1 }

/-- The loop `for id, hash := range idhp`, from an empty `responseCodes` and a
bar that has not advanced. -/
def dispatchAll (env : LoadEnv) (poddedURL : String) (idhp : Shard) : Dispatch :=
  (env.rangeShard idhp).foldl (dispatchRecord env poddedURL) ⟨[], ∅, 0⟩

/-- The sum of the counts of a map of response codes. -/
def valuesSum (responseCodes : ResponseCodes) : Int :=
  (responseCodes.entries.map (fun e => e.2)).sum

/-- Whether the POST of a record ended with a status code. -/
def tallied (env : LoadEnv) (poddedURL : String) (e : Sigma fun _ : RecordId => String) : Bool :=
  match env.post poddedURL e.1 e.2 with
  | .networkError _ => false
  | .status _ => true

/-- The loop `for r, c := range responseCodes { rs += c }` over the visited
rows. -/
def sumRows (rows : List (Sigma fun _ : Int => Int)) : Int :=
  rows.foldl (fun rs e => wrapInt (rs + e.2)) 0

/-- How `loadHistoryIntoPodded` ends: `ratelimit.New` panics, it returns the
error of `ioutil.ReadDir`, the process is ended by `log.Fatalf` on a file, or it
returns `nil`. -/
inductive LoadExit
  | limiterPanic
  | readDirError (err : GoError)
  | fatal (name : String)
  | returned
deriving DecidableEq, Repr

/-- What a run of `loadHistoryIntoPodded` leaves: the rate given to
`ratelimit.New`, the merged record space, the records posted, the total given
to the progress bar and the number of its increments, the map of response
codes, and the rows and the footer of the table. -/
structure LoadRun where
  exit : LoadExit
  rate : Int
  idhp : Shard
  posts : List (RecordId × String)
  barTotal : Nat
  increments : Nat
  responseCodes : ResponseCodes
  rows : List (Sigma fun _ : Int => Int)
  total : Int

/-- The function `loadHistoryIntoPodded`.  `readDir` is the result of
`ioutil.ReadDir(storageDirectory)`, the names of the files.
`ratelimit.New(limit)` divides a duration by `limit`: at limit 0 it panics,
before the directory is read; a limiter that was made only paces the POSTs. -/
def loadHistoryIntoPodded (env : LoadEnv) (readDir : Except GoError (List String))
    (store : Store) (poddedURL : String) (limit : Int) : LoadRun :=
  if limit = 0 then ⟨.limiterPanic, limit, ∅, [], 0, 0, ∅, [], 0⟩
  else
    match readDir with
    | .error err => ⟨.readDirError err, limit, ∅, [], 0, 0, ∅, [], 0⟩
    | .ok files =>
      match mergeFiles env store files ∅ with
      | .fatal name => ⟨.fatal name, limit, ∅, [], 0, 0, ∅, [], 0⟩
      | .merged idhp =>
        let d := dispatchAll env poddedURL idhp
        let rows := env.rangeCodes d.responseCodes
        ⟨.returned, limit, idhp, d.posts, idhp.entries.length, d.increments, d.responseCodes,
          rows, sumRows rows⟩

/-- The mapping that the file `name` of the storage root decodes to, when it
can be opened and decodes. -/
def decodedShard (env : LoadEnv) (store : Store) (name : String) : Option Shard :=
  match store (env.resolve (storagePath name)) with
  | none => none
  | some f =>
    if f.readable then
      match env.decodeShard f.content with
      | .error _ => none
      | .ok totals => some totals
    else none


/-! ## Command line -/

/-- The value of a decimal digit. -/
def digitValue (c : Char) : Option Nat :=
  if '0' ≤ c ∧ c ≤ '9' then some (c.toNat - 48) else none

/-- The number written by a list of decimal digits, after the digits that gave
`acc`; `none` when a character is not a digit. -/
def parseDigits : List Char → Nat → Option Nat
  | [], acc => some acc
  | c :: cs, acc =>
    match digitValue c with
    | none => none
    | some d => parseDigits cs (acc * 10 + d)

/-- Go's `strconv.Atoi` with a 64-bit `int`: the value and whether an error is
returned.  The input is an optional sign and decimal digits; a syntax error
gives 0, a value out of range gives the nearest value of `int`. -/
def strconvAtoi (s : String) : Int × Bool :=
  let signed : Bool × List Char :=
    match s.data with
    | '-' :: cs => (true, cs)
    | '+' :: cs => (false, cs)
    | cs => (false, cs)
  if signed.2 = [] then (0, true)
  else
    match parseDigits signed.2 0 with
    | none => (0, true)
    | some n =>
      if signed.1 then
        if n ≤ 9223372036854775808 then (-(n : Int), false) else (-9223372036854775808, true)
      else
        if n < 9223372036854775808 then ((n : Int), false) else (9223372036854775807, true)

/-- What `main` does: it logs one of its three messages and returns, it calls
`downloadTotalHistory`, or it calls `loadHistoryIntoPodded` with a URL and a
limit (`limiterFailed` says whether "Failed to set limiter" was logged before
the call); with an empty `os.Args` the index `os.Args[1]` is out of range. -/
inductive MainResult
  | usage
  | needUrl
  | badUrl
  | download
  | load (poddedURL : String) (limit : Int) (limiterFailed : Bool)
  | indexOutOfRange
deriving DecidableEq, Repr

/-- The function `main` on the arguments `os.Args`.  `parseRequestURI raw` is
`u.String()` for the `u` that `url.ParseRequestURI(raw)` returns, `none` when
it returns an error. -/
def main (parseRequestURI : String → Option String) (osArgs : List String) : MainResult :=
  if osArgs.length = 1 then .usage
  else
    match osArgs.get? 1 with
    | none => .indexOutOfRange
    | some mode =>
      if mode = "download" then .download
      else if mode = "load" then
        if osArgs.length < 3 then .needUrl
        else
          match parseRequestURI (osArgs.getD 2 "") with
          | none => .badUrl
          | some u =>
            if osArgs.length = 4 then
              .load u (strconvAtoi (osArgs.getD 3 "")).1 (strconvAtoi (osArgs.getD 3 "")).2
            else .load u 1 false
      else .usage

/-! ## Predicates of the proofs and sample inputs -/

/-- A remote that answers every request with status 200 and the body `{}`. -/
def okRemote : String → HttpResult := fun _ => .response 200 (.ok [123, 125])

/-- A store without any file. -/
def emptyStore : Store := fun _ => none

/-- The name resolution of a file system without links, for a process whose
working directory is `/work`: a relative path names the file at the cleaned
path from `/work`. -/
def sampleResolve (path : String) : FileId := ⟨filepathClean ("/work/" ++ path)⟩

/-- The file of the shard of `K` is as in `store0`, no unit launched or run
writes to that file, and every entry that the loop has yet to visit and whose
shard is that file expects `n` records. -/
def Untouched (resolve : String → FileId) (store0 : Store) (K : String) (n : Int)
    (s : Sync) : Prop :=
  s.store (resolve (shardPath K)) = store0 (resolve (shardPath K)) ∧
  (∀ d ∈ s.pending, resolve (shardPath d) ≠ resolve (shardPath K)) ∧
  (∀ r ∈ s.results, resolve (shardPath r.1) ≠ resolve (shardPath K)) ∧
  (∀ e ∈ s.todo, resolve (shardPath e.1) = resolve (shardPath K) → e.2 = n)

/-- The bytes of the document `{"1":"a"}`. -/
def oneRecord : Bytes := [123, 34, 49, 34, 58, 34, 97, 34, 125]

/-- The bytes of the document `{"2":"b"}`. -/
def otherRecord : Bytes := [123, 34, 50, 34, 58, 34, 98, 34, 125]

/-- A decoder that agrees with `encoding/json` on the documents `{}`,
`{"1":"a"}` and `{"2":"b"}`, the only ones decoded in the runs below. -/
def sampleDecodeShard : Bytes → Except String Shard := fun b =>
  if b = [123, 125] then .ok ∅
  else if b = oneRecord then .ok (AList.singleton ⟨1, by decide⟩ "a")
  else if b = otherRecord then .ok (AList.singleton ⟨2, by decide⟩ "b")
  else .error "not a document of this sample"

/-- An environment with the name resolution `sampleResolve`, in which the
totals endpoint answers with the document `totalsDoc`, which decodes to
`totals`, every history request is answered with status 200 and `body`, every
write ends well, and `range` visits the entries of the index in the order in
which they are listed. -/
def sampleEnv (totalsDoc : Bytes) (totals : TotalsIndex) (body : Bytes) : SyncEnv where
  resolve := sampleResolve
  decodeShard := sampleDecodeShard
  unmarshalTotals := fun b => if b = totalsDoc then .ok totals else .error "not the totals"
  httpTotals := fun _ => .response 200 (.ok totalsDoc)
  httpGet := fun _ => .response 200 (.ok body)
  writeOutcome := fun _ _ _ => .ok
  storageRootFails := false
  rangeTotals := fun t => t.entries
  rangeTotals_perm := fun _ => List.Perm.refl _

/-- The bytes of the document `{"./a":2,"a":1}`. -/
def aliasTotalsDoc : Bytes := [123, 34, 46, 47, 97, 34, 58, 50, 44, 34, 97, 34, 58, 49, 125]

/-- The index `{"./a": 2, "a": 1}`: two keys with one shard path. -/
def aliasTotals : TotalsIndex := (AList.singleton "a" 1).insert "./a" 2

/-- A store whose only file is `/work/json/a.json`, with the record of
`oneRecord`. -/
def aliasStore : Store := fun file =>
  if file = ⟨"/work/json/a.json"⟩ then some { content := oneRecord, readable := true }
  else none

/-- The bytes of the document `{"../../work/json/a":2,"a":1}`. -/
def climbTotalsDoc : Bytes :=
  [123, 34, 46, 46, 47, 46, 46, 47, 119, 111, 114, 107, 47, 106, 115, 111, 110, 47, 97, 34,
    58, 50, 44, 34, 97, 34, 58, 49, 125]

/-- The index `{"../../work/json/a": 2, "a": 1}`: two keys whose shard paths
differ and, from the working directory `/work`, name one file. -/
def climbTotals : TotalsIndex := (AList.singleton "a" 1).insert "../../work/json/a" 2

/-- The bytes of the document `{"a":1,"b":2}`. -/
def pairTotalsDoc : Bytes := [123, 34, 97, 34, 58, 49, 44, 34, 98, 34, 58, 50, 125]

/-- The index `{"a": 1, "b": 2}`. -/
def pairTotals : TotalsIndex := (AList.singleton "a" 1).insert "b" 2

/-- The progress of the shard of an incomplete key `K` whose file is the shard
of no other key: the loop has yet to visit `K` and the file is as in `store0`,
or the unit of `K` is launched and the file is as in `store0`, or the unit has
run and the file holds `body`. -/
def Progress (resolve : String → FileId) (store0 : Store) (K : String) (n : Int)
    (body : Bytes) (s : Sync) : Prop :=
  (s.todo.map Sigma.fst).Nodup ∧
  (∀ e ∈ s.todo, e.1 = K → e.2 = n) ∧
  (∀ e ∈ s.todo, e.1 ≠ K → resolve (shardPath e.1) ≠ resolve (shardPath K)) ∧
  (∀ d ∈ s.pending, d ≠ K → resolve (shardPath d) ≠ resolve (shardPath K)) ∧
  ((K ∈ s.todo.map Sigma.fst ∧ K ∉ s.pending ∧
      s.store (resolve (shardPath K)) = store0 (resolve (shardPath K))) ∨
    (K ∉ s.todo.map Sigma.fst ∧ s.pending.count K = 1 ∧
      s.store (resolve (shardPath K)) = store0 (resolve (shardPath K))) ∨
    (K ∉ s.todo.map Sigma.fst ∧ K ∉ s.pending ∧
      s.store (resolve (shardPath K))
        = some (writtenFile store0 (resolve (shardPath K)) body) ∧
      (K, Except.ok ()) ∈ s.results))

/-- The bytes of the document `{"2020-01-01":3,"2020-01-02":1}`. -/
def dayTotalsDoc : Bytes :=
  [123, 34, 50, 48, 50, 48, 45, 48, 49, 45, 48, 49, 34, 58, 51, 44,
    34, 50, 48, 50, 48, 45, 48, 49, 45, 48, 50, 34, 58, 49, 125]

/-- The index `{"2020-01-01": 3, "2020-01-02": 1}`. -/
def dayTotals : TotalsIndex := (AList.singleton "2020-01-01" 3).insert "2020-01-02" 1

/-- A dispatch environment with the name resolution `sampleResolve` and the
decoder `sampleDecodeShard`, in which `range` visits the entries of a map in
the order in which they are listed. -/
def sampleLoadEnv (post : String → RecordId → String → PostOutcome) : LoadEnv where
  resolve := sampleResolve
  decodeShard := sampleDecodeShard
  post := post
  rangeShard := fun m => m.entries
  rangeShard_perm := fun _ => List.Perm.refl _
  rangeCodes := fun m => m.entries
  rangeCodes_perm := fun _ => List.Perm.refl _

/-- A storage root with the shards `{"1":"a"}` and `{"2":"b"}` of two days, and
a file `notes.txt` that is not JSON. -/
def sampleStore : Store := fun file =>
  if file = ⟨"/work/json/20200101.json"⟩ then some { content := oneRecord, readable := true }
  else if file = ⟨"/work/json/20200102.json"⟩ then
    some { content := otherRecord, readable := true }
  else if file = ⟨"/work/json/notes.txt"⟩ then some { content := [104, 105], readable := true }
  else none

/-- A downstream that answers record 1 with 200 and every other record
with 500. -/
def samplePost : String → RecordId → String → PostOutcome := fun _ id _ =>
  if id.1 = 1 then .status 200 else .status 500

/-- The run of the dispatcher on the two shards of `sampleStore`, against a
downstream that answers 200 and 500. -/
def sampleRun : LoadRun :=
  loadHistoryIntoPodded (sampleLoadEnv samplePost) (.ok ["20200101.json", "20200102.json"])
    sampleStore "http://podded.local" 1

/-! ## Theorems -/

/-- The validator says yes exactly when the file exists, can be read and
decodes to a mapping of `n` entries. -/
theorem haveCorrectTotal_eq_true_iff (resolve : String → FileId)
    (decodeShard : Bytes → Except String Shard) (store : Store) (K : String) (n : Int) :
    haveCorrectTotal resolve decodeShard store K n = true ↔
      ∃ f m, store (resolve (shardPath K)) = some f ∧ f.readable = true ∧
        decodeShard f.content = .ok m ∧ (m.entries.length : Int) = n := by
  unfold haveCorrectTotal
  cases hs : store (resolve (shardPath K)) with
  | none => simp
  | some f =>
    cases hr : f.readable with
    | false => simp [hr]
    | true =>
      cases hd : decodeShard f.content with
      | error e => simp [hr, hd]
      | ok m => simp [hr, hd]

/-- C1: `haveCorrectTotal K n` is true exactly when the file of `K` (the file
that the path of `K.json` under the storage root names) exists, can be read,
decodes to a mapping, and the mapping has `n` entries; in every other case it
is false. -/
theorem haveCorrectTotal_iff (resolve : String → FileId)
    (decodeShard : Bytes → Except String Shard) (store : Store) (K : String) (n : Int) :
    (haveCorrectTotal resolve decodeShard store K n = true ↔
      ∃ f m, store (resolve (shardPath K)) = some f ∧ f.readable = true ∧
        decodeShard f.content = .ok m ∧ (m.entries.length : Int) = n) ∧
    (haveCorrectTotal resolve decodeShard store K n = false ↔
      ¬ ∃ f m, store (resolve (shardPath K)) = some f ∧ f.readable = true ∧
        decodeShard f.content = .ok m ∧ (m.entries.length : Int) = n) := by
  refine ⟨haveCorrectTotal_eq_true_iff resolve decodeShard store K n, ?_⟩
  rw [← haveCorrectTotal_eq_true_iff resolve decodeShard store K n]
  cases haveCorrectTotal resolve decodeShard store K n <;> simp

/-- C4, as stated, fails: the fetch succeeds and the write fails once the file
has been opened; an error is returned, and a shard file exists where none
existed before. -/
theorem downloadSingleHistory_write_error_creates_file :
    (downloadSingleHistory sampleResolve okRemote (fun _ _ => .writeFailed 0) emptyStore
        "20200101").1 = .error .fileWrite ∧
      emptyStore (sampleResolve (shardPath "20200101")) = none ∧
      (downloadSingleHistory sampleResolve okRemote (fun _ _ => .writeFailed 0) emptyStore
        "20200101").2 (sampleResolve (shardPath "20200101"))
          = some { content := [], readable := true } :=
  ⟨by rfl, by rfl, by rfl⟩

/-- A write touches no file but its own. -/
theorem ioutilWriteFile_other (outcome : WriteOutcome) (store : Store) (file : FileId)
    (data : Bytes) (p : FileId) (hp : p ≠ file) :
    (ioutilWriteFile outcome store file data).2 p = store p := by
  cases outcome <;> simp [ioutilWriteFile, Store.set, hp]

/-- A write that ends well leaves the data in its file. -/
theorem ioutilWriteFile_ok (store : Store) (file : FileId) (data : Bytes) :
    ioutilWriteFile .ok store file data
      = (.ok (), store.set file (writtenFile store file data)) := rfl

/-- A fetch unit touches no file but the one that the shard path of its key
names. -/
theorem downloadSingleHistory_other (resolve : String → FileId) (httpGet : String → HttpResult)
    (writeOutcome : String → Bytes → WriteOutcome) (store : Store) (date : String)
    (p : FileId) (hp : p ≠ resolve (shardPath date)) :
    (downloadSingleHistory resolve httpGet writeOutcome store date).2 p = store p := by
  unfold downloadSingleHistory
  cases getUrlData httpGet (historyFormat date) with
  | error err => rfl
  | ok data => exact ioutilWriteFile_other _ _ _ _ _ hp

/-- C4, amended: when the fetch fails (network error, non-200 status, body that
cannot be read) or the write does not end well, `downloadSingleHistory` returns
an error and every file other than the shard file of `K` is as before; when the
fetch failed or the shard file could not be opened for writing, the whole store
is as before. -/
theorem downloadSingleHistory_failure_frame (resolve : String → FileId)
    (httpGet : String → HttpResult)
    (writeOutcome : String → Bytes → WriteOutcome) (store : Store) (K : String)
    (hfail : (∃ err, getUrlData httpGet (historyFormat K) = .error err) ∨
      ∃ data, getUrlData httpGet (historyFormat K) = .ok data ∧
        writeOutcome (shardPath K) data ≠ .ok) :
    (∃ err, (downloadSingleHistory resolve httpGet writeOutcome store K).1 = .error err) ∧
    (∀ file, file ≠ resolve (shardPath K) →
      (downloadSingleHistory resolve httpGet writeOutcome store K).2 file = store file) ∧
    (((∃ err, getUrlData httpGet (historyFormat K) = .error err) ∨
        ∃ data, getUrlData httpGet (historyFormat K) = .ok data ∧
          writeOutcome (shardPath K) data = .openFailed) →
      (downloadSingleHistory resolve httpGet writeOutcome store K).2 = store) := by
  refine ⟨?_, fun p hp => downloadSingleHistory_other _ _ _ _ _ p hp, ?_⟩
  · unfold downloadSingleHistory
    rcases hfail with ⟨err, h⟩ | ⟨data, h, hne⟩
    · rw [h]; exact ⟨err, rfl⟩
    · rw [h]
      show ∃ err, (ioutilWriteFile (writeOutcome (shardPath K) data) store
        (resolve (shardPath K)) data).1 = .error err
      cases ho : writeOutcome (shardPath K) data with
      | ok => exact absurd ho hne
      | openFailed => exact ⟨.fileOpen, rfl⟩
      | writeFailed n => exact ⟨.fileWrite, rfl⟩
      | closeFailed => exact ⟨.fileClose, rfl⟩
  · unfold downloadSingleHistory
    rintro (⟨err, h⟩ | ⟨data, h, ho⟩)
    · rw [h]
    · rw [h]
      show (ioutilWriteFile (writeOutcome (shardPath K) data) store
        (resolve (shardPath K)) data).2 = store
      rw [ho]
      rfl

/-- Witness of `downloadSingleHistory_failure_frame`: a request that ends in a
network error. -/
theorem downloadSingleHistory_failure_frame_witness :
    (∃ err, (downloadSingleHistory sampleResolve (fun _ => .failed "timeout") (fun _ _ => .ok)
        emptyStore "20200101").1 = .error err) ∧
    (∀ file, file ≠ sampleResolve (shardPath "20200101") →
      (downloadSingleHistory sampleResolve (fun _ => .failed "timeout") (fun _ _ => .ok)
        emptyStore "20200101").2 file = emptyStore file) ∧
    (((∃ err, getUrlData (fun _ => .failed "timeout") (historyFormat "20200101")
          = .error err) ∨
        ∃ data, getUrlData (fun _ => .failed "timeout") (historyFormat "20200101")
            = .ok data ∧
          (fun _ _ => WriteOutcome.ok) (shardPath "20200101") data = .openFailed) →
      (downloadSingleHistory sampleResolve (fun _ => .failed "timeout") (fun _ _ => .ok)
        emptyStore "20200101").2 = emptyStore) :=
  downloadSingleHistory_failure_frame sampleResolve (fun _ => .failed "timeout")
    (fun _ _ => .ok) emptyStore "20200101" (Or.inl ⟨.network "timeout", rfl⟩)

/-- C5, the code at the failing input: when the totals request fails,
`getTotalsData` returns what unmarshalling the empty byte slice gives, and the
error it returns is never the error of the fetch. -/
theorem getTotalsData_drops_fetch_error (unmarshalTotals : Bytes → Except String TotalsIndex)
    (httpGet : String → HttpResult) (err : GoError)
    (hfetch : getUrlData httpGet totalsApi = .error err) :
    getTotalsData unmarshalTotals httpGet =
        (match unmarshalTotals [] with
          | .error cause => .error (.json cause)
          | .ok totals => .ok totals) ∧
      getTotalsData unmarshalTotals httpGet ≠ .error err := by
  have hjson : ∀ cause, err ≠ .json cause := by
    intro cause hc
    subst hc
    unfold getUrlData at hfetch
    cases hh : httpGet totalsApi with
    | failed c => rw [hh] at hfetch; cases hfetch
    | response status body =>
      rw [hh] at hfetch
      by_cases hs : status ≠ 200
      · simp [hs] at hfetch
      · cases body <;> simp [hs] at hfetch
  unfold getTotalsData
  rw [hfetch]
  refine ⟨rfl, ?_⟩
  cases hu : unmarshalTotals [] with
  | error cause =>
    intro h
    simp only [hu] at h
    injection h with h
    exact hjson cause h.symm
  | ok totals =>
    intro h
    simp only [hu] at h
    cases h

/-- Witness of `getTotalsData_drops_fetch_error`: the request ends in a network
error and the decoder rejects the empty input. -/
theorem getTotalsData_drops_fetch_error_witness :
    getTotalsData (fun _ => .error "unexpected end of JSON input")
        (fun _ => .failed "timeout") =
        (match (fun _ => .error "unexpected end of JSON input" :
            Bytes → Except String TotalsIndex) [] with
          | .error cause => .error (.json cause)
          | .ok totals => .ok totals) ∧
      getTotalsData (fun _ => .error "unexpected end of JSON input")
        (fun _ => .failed "timeout") ≠ .error (.network "timeout") :=
  getTotalsData_drops_fetch_error (fun _ => .error "unexpected end of JSON input")
    (fun _ => .failed "timeout") (.network "timeout") rfl

/-! ### Synchronisation: what the steps preserve -/

/-- The validator reads nothing but the file at the shard path of its key. -/
theorem haveCorrectTotal_congr (resolve : String → FileId)
    (decodeShard : Bytes → Except String Shard)
    (store store' : Store) (k k' : String) (v : Int)
    (h : store (resolve (shardPath k)) = store' (resolve (shardPath k'))) :
    haveCorrectTotal resolve decodeShard store k v
      = haveCorrectTotal resolve decodeShard store' k' v := by
  unfold haveCorrectTotal
  rw [h]

/-- A property kept by every event holds after any list of events. -/
theorem foldl_step_invariant (env : SyncEnv) (P : Sync → Prop)
    (hP : ∀ s e, P s → P (step env s e)) :
    ∀ (l : List Event) (s : Sync), P s → P (l.foldl (step env) s)
  | [], _, h => h
  | e :: l, s, h => foldl_step_invariant env P hP l _ (hP s e h)

/-- One iteration removes one entry of the loop. -/
theorem loopIteration_todo_length (env : SyncEnv) (s : Sync) :
    (loopIteration env s).todo.length = s.todo.length - 1 := by
  unfold loopIteration
  cases h : s.todo with
  | nil => simp [h]
  | cons e rest =>
    obtain ⟨k, v⟩ := e
    by_cases hc : haveCorrectTotal env.resolve env.decodeShard s.store k v = true <;> simp [hc]

/-- After as many iterations as there are entries the loop is over. -/
theorem iterate_todo (env : SyncEnv) :
    ∀ (n : Nat) (s : Sync), s.todo.length = n →
      ((List.replicate n Event.iterate).foldl (step env) s).todo = []
  | 0, s, h => by simpa using h
  | n + 1, s, h => by
    rw [List.replicate_succ, List.foldl_cons]
    apply iterate_todo env n
    show (loopIteration env s).todo.length = n
    rw [loopIteration_todo_length, h]
    rfl

/-- A unit leaves the loop where it is. -/
theorem finish_todo (env : SyncEnv) :
    ∀ (l : List String) (s : Sync),
      ((l.map Event.finish).foldl (step env) s).todo = s.todo
  | [], _ => rfl
  | d :: l, s => by
    rw [List.map_cons, List.foldl_cons, finish_todo env l]
    show (if d ∈ s.pending then runUnit env d s else s).todo = s.todo
    split <;> rfl

/-- After `wg.Wait()` no launched unit is left. -/
theorem finish_pending (env : SyncEnv) :
    ∀ (l : List String) (s : Sync), s.pending = l →
      ((l.map Event.finish).foldl (step env) s).pending = []
  | [], _, h => h
  | d :: l, s, h => by
    rw [List.map_cons, List.foldl_cons]
    apply finish_pending env l
    show (if d ∈ s.pending then runUnit env d s else s).pending = l
    rw [if_pos (by rw [h]; exact List.mem_cons_self d l)]
    show s.pending.erase d = l
    rw [h, List.erase_cons_head]

/-- A run that reaches the loop ends in a state without entries to visit and
without units to run, and that state has every property that the initial state
has and that every event keeps. -/
theorem downloadTotalHistory_invariant (env : SyncEnv) (sched : List Event) (store : Store)
    (totals : TotalsIndex) (P : Sync → Prop)
    (ht : getTotalsData env.unmarshalTotals env.httpTotals = .ok totals)
    (hroot : env.storageRootFails = false)
    (h0 : P ⟨store, env.rangeTotals totals, [], []⟩)
    (hP : ∀ s e, P s → P (step env s e)) :
    ∃ s, P s ∧ s.todo = [] ∧ s.pending = [] ∧
      downloadTotalHistory env sched store = ⟨.complete, s.store, s.results⟩ := by
  let s1 := sched.foldl (step env) ⟨store, env.rangeTotals totals, [], []⟩
  refine ⟨waitGroup env (finishLoop env s1), ?_, ?_, ?_, ?_⟩
  · exact foldl_step_invariant env P hP _ _
      (foldl_step_invariant env P hP _ _ (foldl_step_invariant env P hP _ _ h0))
  · unfold waitGroup
    rw [finish_todo]
    exact iterate_todo env _ _ rfl
  · exact finish_pending env _ _ rfl
  · unfold downloadTotalHistory
    rw [ht]
    simp only [hroot]
    rfl

/-- Every event keeps `Untouched` when the shard of `K` is complete. -/
theorem step_untouched (env : SyncEnv) (store0 : Store) (K : String) (n : Int)
    (hc : haveCorrectTotal env.resolve env.decodeShard store0 K n = true) (s : Sync) (e : Event)
    (h : Untouched env.resolve store0 K n s) : Untouched env.resolve store0 K n (step env s e) := by
  obtain ⟨hs, hp, hr, ht⟩ := h
  cases e with
  | iterate =>
    show Untouched env.resolve store0 K n (loopIteration env s)
    unfold loopIteration
    cases htodo : s.todo with
    | nil => simp only []; exact ⟨hs, hp, hr, ht⟩
    | cons e rest =>
      obtain ⟨k, v⟩ := e
      have hrest : ∀ e ∈ rest, env.resolve (shardPath e.1) = env.resolve (shardPath K) → e.2 = n :=
        fun e he => ht e (by rw [htodo]; exact List.mem_cons_of_mem _ he)
      by_cases hk : haveCorrectTotal env.resolve env.decodeShard s.store k v = true
      · simp only [hk, if_true]
        exact ⟨hs, hp, hr, hrest⟩
      · simp only [hk]
        refine ⟨hs, ?_, hr, hrest⟩
        intro d hd
        rcases List.mem_append.1 hd with hd | hd
        · exact hp d hd
        · rw [List.mem_singleton] at hd
          subst hd
          intro hpath
          apply hk
          have hv : v = n := ht ⟨d, v⟩ (by rw [htodo]; exact List.mem_cons_self _ _) hpath
          rw [hv, haveCorrectTotal_congr env.resolve env.decodeShard s.store store0 d K n
            (by rw [hpath]; exact hs)]
          exact hc
  | finish d =>
    show Untouched env.resolve store0 K n (if d ∈ s.pending then runUnit env d s else s)
    by_cases hd : d ∈ s.pending
    · rw [if_pos hd]
      have hpath : env.resolve (shardPath K) ≠ env.resolve (shardPath d) := fun h => hp d hd h.symm
      refine ⟨?_, ?_, ?_, ht⟩
      · show (downloadSingleHistory env.resolve env.httpGet (env.writeOutcome d) s.store d).2
          (env.resolve (shardPath K)) = _
        rw [downloadSingleHistory_other _ _ _ _ _ _ hpath]
        exact hs
      · intro d' hd'
        exact hp d' (List.mem_of_mem_erase hd')
      · intro r hr'
        rcases List.mem_append.1 hr' with hr' | hr'
        · exact hr r hr'
        · rw [List.mem_singleton] at hr'
          subst hr'
          exact hp d hd
    · rw [if_neg hd]
      exact ⟨hs, hp, hr, ht⟩

/-- C2, amended: when the shard of `K` is complete and every other key of the
totals index whose shard path names the same file as the shard path of `K`
expects the same count, a run of `downloadTotalHistory` launches no fetch unit
for `K` and leaves the shard file of `K` as it was, for every name resolution of
the file system, every interleaving and every outcome of the other fetches. -/
theorem downloadTotalHistory_complete_shard_untouched (env : SyncEnv) (sched : List Event)
    (store : Store) (totals : TotalsIndex) (K : String) (n : Int)
    (ht : getTotalsData env.unmarshalTotals env.httpTotals = .ok totals)
    (hK : totals.lookup K = some n)
    (hc : haveCorrectTotal env.resolve env.decodeShard store K n = true)
    (halias : ∀ K' n', K' ≠ K → totals.lookup K' = some n' →
      env.resolve (shardPath K') = env.resolve (shardPath K) → n' = n) :
    K ∉ (downloadTotalHistory env sched store).results.map Prod.fst ∧
      (downloadTotalHistory env sched store).store (env.resolve (shardPath K))
        = store (env.resolve (shardPath K)) := by
  cases hroot : env.storageRootFails with
  | true =>
    have : downloadTotalHistory env sched store = ⟨.fatalStorage, store, []⟩ := by
      unfold downloadTotalHistory
      rw [ht]
      simp only [hroot, if_true]
    rw [this]
    simp
  | false =>
    have h0 : Untouched env.resolve store K n ⟨store, env.rangeTotals totals, [], []⟩ := by
      refine ⟨rfl, by simp, by simp, ?_⟩
      rintro ⟨k, v⟩ he hpath
      have hmem : (⟨k, v⟩ : Sigma fun _ : String => Int) ∈ totals.entries :=
        (env.rangeTotals_perm totals).mem_iff.1 he
      have hlook : totals.lookup k = some v := AList.mem_lookup_iff.2 hmem
      by_cases hk : k = K
      · subst hk
        rw [hK] at hlook
        exact (Option.some.inj hlook).symm
      · exact halias k v hk hlook hpath
    obtain ⟨s, ⟨hs, -, hr, -⟩, -, -, hrun⟩ :=
      downloadTotalHistory_invariant env sched store totals (Untouched env.resolve store K n) ht hroot h0
        (step_untouched env store K n hc)
    rw [hrun]
    refine ⟨?_, hs⟩
    intro hmem
    obtain ⟨r, hr', hrk⟩ := List.mem_map.1 hmem
    exact hr r hr' (by rw [hrk])

/-- C2, as stated, fails: the shard of `a` is complete, and the key `./a` of
the index has the same shard file and expects two records.  The unit of `./a`
runs before the loop visits `a`: it overwrites the file, and a fetch is issued
for `a` as well. -/
theorem downloadTotalHistory_alias_overwrites_complete_shard :
    getTotalsData (sampleEnv aliasTotalsDoc aliasTotals [123, 125]).unmarshalTotals
        (sampleEnv aliasTotalsDoc aliasTotals [123, 125]).httpTotals = .ok aliasTotals ∧
      aliasTotals.lookup "a" = some 1 ∧
      haveCorrectTotal sampleResolve sampleDecodeShard aliasStore "a" 1 = true ∧
      aliasStore (sampleResolve (shardPath "a"))
        = some { content := oneRecord, readable := true } ∧
      (downloadTotalHistory (sampleEnv aliasTotalsDoc aliasTotals [123, 125])
        [.iterate, .finish "./a"] aliasStore).store (sampleResolve (shardPath "a"))
          = some { content := [123, 125], readable := true } ∧
      (downloadTotalHistory (sampleEnv aliasTotalsDoc aliasTotals [123, 125])
        [.iterate, .finish "./a"] aliasStore).results.map Prod.fst = ["./a", "a"] :=
  ⟨by rfl, by rfl, by rfl, by rfl, by rfl, by rfl⟩

/-- Witness of `downloadTotalHistory_complete_shard_untouched`: the index
`{"a": 1, "b": 2}` and a store whose shard of `a` holds one record and that has
no shard of `b`; the unit of `b` runs and writes its own file. -/
theorem downloadTotalHistory_complete_shard_untouched_witness :
    (downloadTotalHistory (sampleEnv pairTotalsDoc pairTotals otherRecord)
        [] aliasStore).results.map Prod.fst = ["b"] ∧
    ("a" ∉ (downloadTotalHistory (sampleEnv pairTotalsDoc pairTotals otherRecord)
        [] aliasStore).results.map Prod.fst ∧
      (downloadTotalHistory (sampleEnv pairTotalsDoc pairTotals otherRecord)
        [] aliasStore).store ((sampleEnv pairTotalsDoc pairTotals otherRecord).resolve
          (shardPath "a"))
        = aliasStore ((sampleEnv pairTotalsDoc pairTotals otherRecord).resolve
          (shardPath "a"))) :=
  ⟨by rfl,
    downloadTotalHistory_complete_shard_untouched
      (sampleEnv pairTotalsDoc pairTotals otherRecord) [] aliasStore
      pairTotals "a" 1 (by rfl) (by rfl) (by rfl)
      (by
        intro K' n' hne hl hfile
        have hmem : K' ∈ pairTotals.keys :=
          AList.mem_keys.1 (AList.lookup_isSome.1 (by rw [hl]; rfl))
        have hkeys : pairTotals.keys = ["b", "a"] := by rfl
        rw [hkeys] at hmem
        simp only [List.mem_cons, List.mem_singleton, List.not_mem_nil, or_false] at hmem
        rcases hmem with rfl | rfl
        · exact absurd hfile (by decide)
        · exact absurd rfl hne)⟩

/-- A fetch unit whose request and write end well leaves the body at the shard
path of its key. -/
theorem downloadSingleHistory_ok (resolve : String → FileId) (httpGet : String → HttpResult)
    (writeOutcome : String → Bytes → WriteOutcome) (store : Store) (K : String) (body : Bytes)
    (hget : getUrlData httpGet (historyFormat K) = .ok body)
    (hwrite : writeOutcome (shardPath K) body = .ok) :
    downloadSingleHistory resolve httpGet writeOutcome store K
      = (.ok (), store.set (resolve (shardPath K))
          (writtenFile store (resolve (shardPath K)) body)) := by
  unfold downloadSingleHistory
  rw [hget]
  show ioutilWriteFile (writeOutcome (shardPath K) body) store (resolve (shardPath K)) body = _
  rw [hwrite]
  rfl

/-- The written file depends on the store at its path only. -/
theorem writtenFile_congr (store store' : Store) (path : FileId) (content : Bytes)
    (h : store path = store' path) :
    writtenFile store path content = writtenFile store' path content := by
  unfold writtenFile
  rw [h]

/-- One iteration of the loop keeps `Progress`. -/
theorem loopIteration_progress (env : SyncEnv) (store0 : Store) (K : String) (n : Int)
    (body : Bytes) (hinc : haveCorrectTotal env.resolve env.decodeShard store0 K n = false)
    (s : Sync) (h : Progress env.resolve store0 K n body s) :
    Progress env.resolve store0 K n body (loopIteration env s) := by
  obtain ⟨hnd, hval, htodo, hpend, hphase⟩ := h
  unfold loopIteration
  cases hs : s.todo with
  | nil => simp only []; exact ⟨hnd, hval, htodo, hpend, hphase⟩
  | cons e rest =>
    obtain ⟨k, v⟩ := e
    rw [hs] at hnd hval htodo hphase
    simp only [List.map_cons, List.nodup_cons] at hnd
    obtain ⟨hk, hnd⟩ := hnd
    have hval' : ∀ e ∈ rest, e.1 = K → e.2 = n :=
      fun e he => hval e (List.mem_cons_of_mem _ he)
    have htodo' : ∀ e ∈ rest, e.1 ≠ K → env.resolve (shardPath e.1) ≠ env.resolve (shardPath K) :=
      fun e he => htodo e (List.mem_cons_of_mem _ he)
    have hpend' : ∀ d ∈ s.pending ++ [k], d ≠ K → env.resolve (shardPath d) ≠ env.resolve (shardPath K) := by
      intro d hd hne
      rcases List.mem_append.1 hd with hd | hd
      · exact hpend d hd hne
      · rw [List.mem_singleton] at hd
        subst hd
        exact htodo ⟨d, v⟩ (List.mem_cons_self _ _) hne
    by_cases hkK : k = K
    · subst hkK
      have hv : v = n := hval ⟨k, v⟩ (List.mem_cons_self _ _) rfl
      rcases hphase with ⟨-, hnp, hst⟩ | ⟨hnot, -, -⟩ | ⟨hnot, -, -, -⟩
      · have hfalse : haveCorrectTotal env.resolve env.decodeShard s.store k v = false := by
          rw [hv, haveCorrectTotal_congr env.resolve env.decodeShard s.store store0 k k n hst]
          exact hinc
        simp only [hfalse]
        refine ⟨hnd, hval', htodo', hpend', Or.inr (Or.inl ⟨hk, ?_, hst⟩)⟩
        show (s.pending ++ [k]).count k = 1
        rw [List.count_append, List.count_eq_zero_of_not_mem hnp]
        simp
      · exact absurd (List.mem_cons_self _ _) hnot
      · exact absurd (List.mem_cons_self _ _) hnot
    · have hmem : K ∈ k :: rest.map Sigma.fst ↔ K ∈ rest.map Sigma.fst := by
        rw [List.mem_cons]
        exact ⟨fun h => h.resolve_left (fun h' => hkK h'.symm), Or.inr⟩
      simp only [List.map_cons] at hphase
      rw [hmem] at hphase
      by_cases hc : haveCorrectTotal env.resolve env.decodeShard s.store k v = true
      · simp only [hc, if_true]
        exact ⟨hnd, hval', htodo', hpend, hphase⟩
      · simp only [hc]
        refine ⟨hnd, hval', htodo', hpend', ?_⟩
        have hnotmem : ∀ {l : List String}, K ∉ l → K ∉ l ++ [k] := by
          intro l hl hin
          rcases List.mem_append.1 hin with hin | hin
          · exact hl hin
          · exact hkK (List.mem_singleton.1 hin).symm
        have hcount : (s.pending ++ [k]).count K = s.pending.count K := by
          rw [List.count_append, List.count_singleton]
          simp [hkK]
        rcases hphase with ⟨hin, hnp, hst⟩ | ⟨hnot, hcnt, hst⟩ | ⟨hnot, hnp, hst, hres⟩
        · exact Or.inl ⟨hin, hnotmem hnp, hst⟩
        · exact Or.inr (Or.inl ⟨hnot, by show (s.pending ++ [k]).count K = 1; rw [hcount, hcnt],
            hst⟩)
        · exact Or.inr (Or.inr ⟨hnot, hnotmem hnp, hst, hres⟩)

/-- A launched unit that runs keeps `Progress`. -/
theorem runUnit_progress (env : SyncEnv) (store0 : Store) (K : String) (n : Int)
    (body : Bytes) (hget : getUrlData env.httpGet (historyFormat K) = .ok body)
    (hwrite : env.writeOutcome K (shardPath K) body = .ok)
    (s : Sync) (d : String) (hd : d ∈ s.pending) (h : Progress env.resolve store0 K n body s) :
    Progress env.resolve store0 K n body (runUnit env d s) := by
  obtain ⟨hnd, hval, htodo, hpend, hphase⟩ := h
  have hpend' : ∀ d' ∈ s.pending.erase d, d' ≠ K → env.resolve (shardPath d') ≠ env.resolve (shardPath K) :=
    fun d' hd' => hpend d' (List.mem_of_mem_erase hd')
  refine ⟨hnd, hval, htodo, hpend', ?_⟩
  by_cases hdK : d = K
  · subst hdK
    rcases hphase with ⟨-, hnp, -⟩ | ⟨hnot, hcnt, hst⟩ | ⟨-, hnp, -, -⟩
    · exact absurd hd hnp
    · refine Or.inr (Or.inr ⟨hnot, ?_, ?_, ?_⟩)
      · show d ∉ s.pending.erase d
        apply List.count_eq_zero.1
        rw [List.count_erase_self, hcnt]
      · show (downloadSingleHistory env.resolve env.httpGet (env.writeOutcome d) s.store d).2
          (env.resolve (shardPath d)) = _
        rw [downloadSingleHistory_ok _ _ _ _ _ _ hget hwrite,
          writtenFile_congr s.store store0 _ _ hst]
        simp [Store.set]
      · show (d, Except.ok ()) ∈ s.results ++
          [(d, (downloadSingleHistory env.resolve env.httpGet (env.writeOutcome d) s.store d).1)]
        rw [downloadSingleHistory_ok _ _ _ _ _ _ hget hwrite]
        simp
    · exact absurd hd hnp
  · have hpath : env.resolve (shardPath K) ≠ env.resolve (shardPath d) := fun h => hpend d hd hdK h.symm
    have hstore : (runUnit env d s).store (env.resolve (shardPath K)) = s.store (env.resolve (shardPath K)) :=
      downloadSingleHistory_other _ _ _ _ _ _ hpath
    have hne : K ≠ d := fun h => hdK h.symm
    rcases hphase with ⟨hin, hnp, hst⟩ | ⟨hnot, hcnt, hst⟩ | ⟨hnot, hnp, hst, hres⟩
    · exact Or.inl ⟨hin, fun h => hnp (List.mem_of_mem_erase h), by rw [hstore]; exact hst⟩
    · refine Or.inr (Or.inl ⟨hnot, ?_, by rw [hstore]; exact hst⟩)
      show (s.pending.erase d).count K = 1
      rw [List.count_erase_of_ne hne, hcnt]
    · exact Or.inr (Or.inr ⟨hnot, fun h => hnp (List.mem_of_mem_erase h),
        by rw [hstore]; exact hst, List.mem_append_left _ hres⟩)

/-- Every event keeps `Progress`. -/
theorem step_progress (env : SyncEnv) (store0 : Store) (K : String) (n : Int)
    (body : Bytes) (hinc : haveCorrectTotal env.resolve env.decodeShard store0 K n = false)
    (hget : getUrlData env.httpGet (historyFormat K) = .ok body)
    (hwrite : env.writeOutcome K (shardPath K) body = .ok)
    (s : Sync) (e : Event) (h : Progress env.resolve store0 K n body s) :
    Progress env.resolve store0 K n body (step env s e) := by
  cases e with
  | iterate => exact loopIteration_progress env store0 K n body hinc s h
  | finish d =>
    show Progress env.resolve store0 K n body (if d ∈ s.pending then runUnit env d s else s)
    by_cases hd : d ∈ s.pending
    · rw [if_pos hd]
      exact runUnit_progress env store0 K n body hget hwrite s d hd h
    · rw [if_neg hd]
      exact h

/-- C3, amended: for a key `K` of the totals index whose shard is not complete
and whose shard path names a file that the shard path of no other key of the
index names, when the storage root is there and the fetch of `K` succeeds
(status 200, body read, file written), a run of `downloadTotalHistory` ends with
the unit of `K` run without error and the shard file of `K` holding the response
body; the shard is then complete exactly when the file can be read and the body
decodes to a mapping of `TotalsIndex[K]` records. -/
theorem downloadTotalHistory_fetched_shard_written (env : SyncEnv) (sched : List Event)
    (store : Store) (totals : TotalsIndex) (K : String) (n : Int) (body : Bytes)
    (ht : getTotalsData env.unmarshalTotals env.httpTotals = .ok totals)
    (hroot : env.storageRootFails = false)
    (hK : totals.lookup K = some n)
    (hinc : haveCorrectTotal env.resolve env.decodeShard store K n = false)
    (halias : ∀ K' ∈ totals.keys, K' ≠ K →
      env.resolve (shardPath K') ≠ env.resolve (shardPath K))
    (hget : getUrlData env.httpGet (historyFormat K) = .ok body)
    (hwrite : env.writeOutcome K (shardPath K) body = .ok) :
    (downloadTotalHistory env sched store).exit = .complete ∧
      (K, Except.ok ()) ∈ (downloadTotalHistory env sched store).results ∧
      (downloadTotalHistory env sched store).store (env.resolve (shardPath K))
        = some (writtenFile store (env.resolve (shardPath K)) body) ∧
      (haveCorrectTotal env.resolve env.decodeShard
          (downloadTotalHistory env sched store).store K n = true ↔
        (writtenFile store (env.resolve (shardPath K)) body).readable = true ∧
          ∃ m, env.decodeShard body = .ok m ∧ (m.entries.length : Int) = n) := by
  have hperm := env.rangeTotals_perm totals
  have hkeys : (env.rangeTotals totals).map Sigma.fst = (env.rangeTotals totals).keys := rfl
  have h0 : Progress env.resolve store K n body ⟨store, env.rangeTotals totals, [], []⟩ := by
    refine ⟨?_, ?_, ?_, by simp, Or.inl ⟨?_, by simp, rfl⟩⟩
    · show ((env.rangeTotals totals).map Sigma.fst).Nodup
      rw [hkeys]
      exact (List.perm_nodupKeys hperm).2 totals.nodupKeys
    · rintro ⟨k, v⟩ he hk
      have hlook : totals.lookup k = some v := AList.mem_lookup_iff.2 (hperm.mem_iff.1 he)
      simp only at hk
      subst hk
      rw [hK] at hlook
      exact (Option.some.inj hlook).symm
    · rintro ⟨k, v⟩ he hk
      have hlook : totals.lookup k = some v := AList.mem_lookup_iff.2 (hperm.mem_iff.1 he)
      exact halias k (AList.mem_keys.1 (AList.lookup_isSome.1 (by rw [hlook]; rfl))) hk
    · show K ∈ (env.rangeTotals totals).map Sigma.fst
      have hmem : (⟨K, n⟩ : Sigma fun _ : String => Int) ∈ env.rangeTotals totals :=
        hperm.mem_iff.2 (AList.mem_lookup_iff.1 hK)
      exact List.mem_map.2 ⟨⟨K, n⟩, hmem, rfl⟩
  obtain ⟨s, ⟨-, -, -, -, hphase⟩, htodo, hpending, hrun⟩ :=
    downloadTotalHistory_invariant env sched store totals (Progress env.resolve store K n body) ht hroot h0
      (step_progress env store K n body hinc hget hwrite)
  rw [hrun]
  rcases hphase with ⟨hin, -, -⟩ | ⟨-, hcnt, -⟩ | ⟨-, -, hst, hres⟩
  · rw [htodo] at hin
    simp at hin
  · rw [hpending] at hcnt
    simp at hcnt
  · refine ⟨rfl, hres, hst, ?_⟩
    show haveCorrectTotal env.resolve env.decodeShard s.store K n = true ↔ _
    rw [haveCorrectTotal_eq_true_iff env.resolve env.decodeShard s.store K n]
    have hcontent : (writtenFile store (env.resolve (shardPath K)) body).content = body := by
      unfold writtenFile
      cases store (env.resolve (shardPath K)) <;> rfl
    constructor
    · rintro ⟨f, m, hf, hr, hd, hl⟩
      rw [hst] at hf
      cases hf
      rw [hcontent] at hd
      exact ⟨hr, m, hd, hl⟩
    · rintro ⟨hr, m, hd, hl⟩
      exact ⟨_, m, hst, hr, by rw [hcontent]; exact hd, hl⟩

/-- C3, as stated, fails: the index expects three records for `2020-01-01`, no
shard exists, and the fetch succeeds with a body of one record.  The body is
written as it is, and the shard has one record, not three. -/
theorem downloadTotalHistory_written_shard_count_differs :
    getTotalsData (sampleEnv dayTotalsDoc dayTotals oneRecord).unmarshalTotals
        (sampleEnv dayTotalsDoc dayTotals oneRecord).httpTotals = .ok dayTotals ∧
      dayTotals.lookup "2020-01-01" = some 3 ∧
      haveCorrectTotal sampleResolve sampleDecodeShard emptyStore "2020-01-01" 3 = false ∧
      getUrlData (sampleEnv dayTotalsDoc dayTotals oneRecord).httpGet
        (historyFormat "2020-01-01") = .ok oneRecord ∧
      (sampleEnv dayTotalsDoc dayTotals oneRecord).writeOutcome "2020-01-01"
        (shardPath "2020-01-01") oneRecord = .ok ∧
      (downloadTotalHistory (sampleEnv dayTotalsDoc dayTotals oneRecord) [] emptyStore).results
        = [("2020-01-02", .ok ()), ("2020-01-01", .ok ())] ∧
      (downloadTotalHistory (sampleEnv dayTotalsDoc dayTotals oneRecord) [] emptyStore).store
        (sampleResolve (shardPath "2020-01-01"))
          = some { content := oneRecord, readable := true } ∧
      sampleDecodeShard oneRecord = .ok (AList.singleton ⟨1, by decide⟩ "a") ∧
      haveCorrectTotal sampleResolve sampleDecodeShard
        (downloadTotalHistory (sampleEnv dayTotalsDoc dayTotals oneRecord) [] emptyStore).store
        "2020-01-01" 3 = false :=
  ⟨by rfl, by rfl, by rfl, by rfl, by rfl, by rfl, by rfl, by rfl, by rfl⟩

/-- The keys of `dayTotals` other than a given one have shard files of their
own. -/
theorem dayTotals_files (K : String) (hK : K ∈ dayTotals.keys) :
    ∀ K' ∈ dayTotals.keys, K' ≠ K →
      sampleResolve (shardPath K') ≠ sampleResolve (shardPath K) := by
  have hkeys : dayTotals.keys = ["2020-01-02", "2020-01-01"] := by rfl
  rw [hkeys] at hK ⊢
  intro K' hmem hne
  simp only [List.mem_cons, List.mem_singleton, List.not_mem_nil, or_false] at hK hmem
  rcases hK with rfl | rfl <;> rcases hmem with rfl | rfl
  · exact absurd rfl hne
  · decide
  · decide
  · exact absurd rfl hne

/-- Witness of `downloadTotalHistory_fetched_shard_written`: the index
`{"2020-01-01": 3, "2020-01-02": 1}`, an empty store and fetches that succeed
with a body of one record; the shard of `2020-01-02` is written and is
complete. -/
theorem downloadTotalHistory_fetched_shard_written_witness :
    haveCorrectTotal sampleResolve sampleDecodeShard
        (downloadTotalHistory (sampleEnv dayTotalsDoc dayTotals oneRecord) [] emptyStore).store
        "2020-01-02" 1 = true ∧
    ((downloadTotalHistory (sampleEnv dayTotalsDoc dayTotals oneRecord) [] emptyStore).exit
        = .complete ∧
      ("2020-01-02", Except.ok ()) ∈
        (downloadTotalHistory (sampleEnv dayTotalsDoc dayTotals oneRecord) [] emptyStore).results ∧
      (downloadTotalHistory (sampleEnv dayTotalsDoc dayTotals oneRecord) [] emptyStore).store
          ((sampleEnv dayTotalsDoc dayTotals oneRecord).resolve (shardPath "2020-01-02"))
        = some (writtenFile emptyStore
            ((sampleEnv dayTotalsDoc dayTotals oneRecord).resolve (shardPath "2020-01-02"))
            oneRecord) ∧
      (haveCorrectTotal (sampleEnv dayTotalsDoc dayTotals oneRecord).resolve
          (sampleEnv dayTotalsDoc dayTotals oneRecord).decodeShard
          (downloadTotalHistory (sampleEnv dayTotalsDoc dayTotals oneRecord) [] emptyStore).store
          "2020-01-02" 1 = true ↔
        (writtenFile emptyStore
            ((sampleEnv dayTotalsDoc dayTotals oneRecord).resolve (shardPath "2020-01-02"))
            oneRecord).readable = true ∧
          ∃ m, (sampleEnv dayTotalsDoc dayTotals oneRecord).decodeShard oneRecord = .ok m ∧
            (m.entries.length : Int) = 1)) :=
  ⟨by rfl,
    downloadTotalHistory_fetched_shard_written (sampleEnv dayTotalsDoc dayTotals oneRecord) []
      emptyStore dayTotals "2020-01-02" 1 oneRecord (by rfl) (by rfl) (by rfl) (by rfl)
      (dayTotals_files "2020-01-02" (by decide)) (by rfl) (by rfl)⟩

/-! ### Aggregation -/

/-- One iteration of the loop over the files, in terms of `decodedShard`. -/
theorem mergeFiles_cons (env : LoadEnv) (store : Store) (name : String)
    (files : List String) (idhp : Shard) :
    mergeFiles env store (name :: files) idhp =
      match decodedShard env store name with
      | none => .fatal name
      | some totals => mergeFiles env store files (mergeShard env idhp totals) := by
  rw [mergeFiles, decodedShard]
  cases store (env.resolve (storagePath name)) with
  | none => rfl
  | some f =>
    cases hr : f.readable with
    | false => simp [hr]
    | true =>
      cases hd : env.decodeShard f.content with
      | error cause => simp [hr, hd]
      | ok totals => simp [hr, hd]

/-- The loop over the files stops at the first file that cannot be opened or
decoded. -/
theorem mergeFiles_fatal (env : LoadEnv) (store : Store) :
    ∀ (files : List String) (idhp : Shard),
      (∃ name ∈ files, decodedShard env store name = none) →
      ∃ name, mergeFiles env store files idhp = .fatal name
  | [], _, h => by
    obtain ⟨name, hmem, -⟩ := h
    cases hmem
  | name :: files, idhp, h => by
    rw [mergeFiles_cons]
    cases hd : decodedShard env store name with
    | none => exact ⟨name, rfl⟩
    | some totals =>
      apply mergeFiles_fatal env store files
      obtain ⟨bad, hmem, hbad⟩ := h
      rcases List.mem_cons.1 hmem with rfl | hmem
      · rw [hd] at hbad
        cases hbad
      · exact ⟨bad, hmem, hbad⟩

/-- At limit 0 `ratelimit.New` panics: no file is read and no record is
posted. -/
theorem loadHistoryIntoPodded_limit_zero (env : LoadEnv)
    (readDir : Except GoError (List String)) (store : Store) (poddedURL : String) :
    (loadHistoryIntoPodded env readDir store poddedURL 0).exit = .limiterPanic ∧
      (loadHistoryIntoPodded env readDir store poddedURL 0).posts = [] := by
  unfold loadHistoryIntoPodded
  exact ⟨rfl, rfl⟩

/-- C9: in a run whose limiter was made (the limit is not 0), when the storage
root holds a file that cannot be opened or does not decode to a mapping,
`loadHistoryIntoPodded` is ended by `log.Fatalf` in the loop over the files, and
no record is posted, whatever the other files hold. -/
theorem loadHistoryIntoPodded_corrupt_file_fatal (env : LoadEnv) (files : List String)
    (store : Store) (poddedURL : String) (limit : Int) (hlimit : limit ≠ 0)
    (hbad : ∃ name ∈ files, decodedShard env store name = none) :
    (∃ name, (loadHistoryIntoPodded env (.ok files) store poddedURL limit).exit = .fatal name) ∧
      (loadHistoryIntoPodded env (.ok files) store poddedURL limit).posts = [] := by
  obtain ⟨name, hname⟩ := mergeFiles_fatal env store files ∅ hbad
  unfold loadHistoryIntoPodded
  rw [if_neg hlimit]
  simp only [hname]
  exact ⟨⟨name, rfl⟩, trivial⟩

/-- Inserting the entries of a list without repeated keys: an id is looked up
in the list first, then in the map the entries were added to. -/
theorem foldl_insert_lookup (id : RecordId) :
    ∀ (l : List (Sigma fun _ : RecordId => String)) (_ : l.NodupKeys) (m : Shard),
      (l.foldl (fun m e => m.insert e.1 e.2) m).lookup id = (l.dlookup id).or (m.lookup id)
  | [], _, m => by simp [List.dlookup]
  | ⟨k, v⟩ :: l, hl, m => by
    rw [List.foldl_cons, foldl_insert_lookup id l (List.nodupKeys_cons.1 hl).2]
    by_cases hk : id = k
    · subst hk
      have hnone : l.dlookup id = none :=
        List.dlookup_eq_none.2 (List.nodupKeys_cons.1 hl).1
      simp [hnone, List.dlookup_cons_eq]
    · have hk' : k ≠ id := fun h => hk h.symm
      rw [List.dlookup_cons_ne l _ hk, AList.lookup_insert_ne hk]

/-- Merging a shard into the record space: the shard wins on a collision. -/
theorem mergeShard_lookup (env : LoadEnv) (idhp totals : Shard) (id : RecordId) :
    (mergeShard env idhp totals).lookup id = (totals.lookup id).or (idhp.lookup id) := by
  have hperm := env.rangeShard_perm totals
  have hnd : (env.rangeShard totals).NodupKeys := (List.perm_nodupKeys hperm).2 totals.nodupKeys
  unfold mergeShard
  rw [foldl_insert_lookup id _ hnd,
    List.perm_dlookup id hnd totals.nodupKeys hperm]
  rfl

/-- When every file decodes the loop over the files ends with a record space
in which an id has the hash of the last shard that holds it, or else the hash
it had before the loop. -/
theorem mergeFiles_lookup (env : LoadEnv) (store : Store) :
    ∀ (files : List String) (idhp : Shard),
      (∀ name ∈ files, decodedShard env store name ≠ none) →
      ∃ m, mergeFiles env store files idhp = .merged m ∧
        ∀ id, m.lookup id =
          (((files.filterMap (decodedShard env store)).reverse.findSome?
            (fun sh => sh.lookup id)).or (idhp.lookup id))
  | [], idhp, _ => ⟨idhp, rfl, fun id => by simp⟩
  | name :: files, idhp, h => by
    rw [mergeFiles_cons]
    cases hd : decodedShard env store name with
    | none => exact absurd hd (h name (List.mem_cons_self _ _))
    | some totals =>
      obtain ⟨m, hm, hlook⟩ := mergeFiles_lookup env store files (mergeShard env idhp totals)
        (fun n hn => h n (List.mem_cons_of_mem _ hn))
      refine ⟨m, hm, fun id => ?_⟩
      rw [hlook id, mergeShard_lookup, List.filterMap_cons_some hd, List.reverse_cons,
        List.findSome?_append, Option.or_assoc]
      congr 1
      cases hl : totals.lookup id <;> simp [List.findSome?, hl]

/-- In a list of shards no two of which share an id, the last shard that holds
an id is the only one. -/
theorem lookup_last_of_disjoint (shards : List Shard) (id : RecordId) (h : String)
    (hdis : shards.Pairwise (fun a b => ∀ i, i ∈ a → i ∉ b)) :
    shards.reverse.findSome? (fun sh => sh.lookup id) = some h ↔
      ∃ sh ∈ shards, sh.lookup id = some h := by
  have hsymm : Symmetric (fun a b : Shard => ∀ i, i ∈ a → i ∉ b) :=
    fun a b hab i hib hia => hab i hia hib
  constructor
  · intro hf
    obtain ⟨sh, hmem, hsh⟩ := List.exists_of_findSome?_eq_some hf
    exact ⟨sh, List.mem_reverse.1 hmem, hsh⟩
  · rintro ⟨sh, hmem, hsh⟩
    cases hf : shards.reverse.findSome? (fun sh => sh.lookup id) with
    | none =>
      have := List.findSome?_eq_none_iff.1 hf sh (List.mem_reverse.2 hmem)
      simp only at this
      rw [hsh] at this
      cases this
    | some h' =>
      obtain ⟨a, hmem', ha⟩ := List.exists_of_findSome?_eq_some hf
      have hmema : a ∈ shards := List.mem_reverse.1 hmem'
      by_cases hne : a = sh
      · subst hne
        rw [hsh] at ha
        exact ha.symm ▸ rfl
      · exfalso
        refine hdis.forall hsymm hmema hmem hne id ?_ ?_
        · exact AList.lookup_isSome.1 (by rw [ha]; rfl)
        · exact AList.lookup_isSome.1 (by rw [hsh]; rfl)

/-- The record space of a run whose loop over the files ends with `idhp`. -/
theorem loadHistoryIntoPodded_idhp (env : LoadEnv) (files : List String) (store : Store)
    (poddedURL : String) (limit : Int) (idhp : Shard) (hlimit : limit ≠ 0)
    (h : mergeFiles env store files ∅ = .merged idhp) :
    (loadHistoryIntoPodded env (.ok files) store poddedURL limit).exit = .returned ∧
      (loadHistoryIntoPodded env (.ok files) store poddedURL limit).idhp = idhp := by
  unfold loadHistoryIntoPodded
  rw [if_neg hlimit]
  simp only [h]
  exact ⟨trivial, trivial⟩

/-- C6: in a run whose limiter was made (the limit is not 0), when every file of
the storage root decodes, the record space built by `loadHistoryIntoPodded` is
the union of the shards with overwrite on collision:
an id is in it exactly when some shard holds it, its hash is the one of the
last shard, in the order of the files, that holds it, and when no id is in two
shards the record space is the same for every order of the files. -/
theorem loadHistoryIntoPodded_merge_union (env : LoadEnv) (files : List String)
    (store : Store) (poddedURL : String) (limit : Int) (hlimit : limit ≠ 0)
    (hall : ∀ name ∈ files, decodedShard env store name ≠ none) :
    (loadHistoryIntoPodded env (.ok files) store poddedURL limit).exit = .returned ∧
    (∀ id, id ∈ (loadHistoryIntoPodded env (.ok files) store poddedURL limit).idhp ↔
      ∃ sh ∈ files.filterMap (decodedShard env store), id ∈ sh) ∧
    (∀ id h, (loadHistoryIntoPodded env (.ok files) store poddedURL limit).idhp.lookup id
        = some h ↔
      ∃ before sh after, files.filterMap (decodedShard env store) = before ++ sh :: after ∧
        sh.lookup id = some h ∧ ∀ later ∈ after, id ∉ later) ∧
    ((files.filterMap (decodedShard env store)).Pairwise (fun a b => ∀ i, i ∈ a → i ∉ b) →
      ∀ files', files'.Perm files → ∀ id,
        (loadHistoryIntoPodded env (.ok files') store poddedURL limit).idhp.lookup id
          = (loadHistoryIntoPodded env (.ok files) store poddedURL limit).idhp.lookup id) := by
  obtain ⟨m, hm, hlook⟩ := mergeFiles_lookup env store files ∅ hall
  obtain ⟨hexit, hidhp⟩ :=
    loadHistoryIntoPodded_idhp env files store poddedURL limit m hlimit hm
  rw [hidhp]
  have hlook' : ∀ id, m.lookup id =
      (files.filterMap (decodedShard env store)).reverse.findSome? (fun sh => sh.lookup id) := by
    intro id
    rw [hlook id]
    simp
  have hlast : ∀ id h, m.lookup id = some h ↔
      ∃ before sh after, files.filterMap (decodedShard env store) = before ++ sh :: after ∧
        sh.lookup id = some h ∧ ∀ later ∈ after, id ∉ later := by
    intro id h
    rw [hlook' id, List.findSome?_eq_some_iff]
    constructor
    · rintro ⟨l₁, sh, l₂, hrev, hsh, hnone⟩
      refine ⟨l₂.reverse, sh, l₁.reverse, ?_, hsh, ?_⟩
      · have := congrArg List.reverse hrev
        simpa using this
      · intro later hl
        exact AList.lookup_eq_none.1 (hnone later (List.mem_reverse.1 hl))
    · rintro ⟨before, sh, after, hsplit, hsh, hnone⟩
      refine ⟨after.reverse, sh, before.reverse, ?_, hsh, ?_⟩
      · rw [hsplit]
        simp
      · intro x hx
        exact AList.lookup_eq_none.2 (hnone x (List.mem_reverse.1 hx))
  refine ⟨hexit, ?_, hlast, ?_⟩
  · intro id
    constructor
    · intro hmem
      obtain ⟨h, hh⟩ := Option.isSome_iff_exists.1 (AList.lookup_isSome.2 hmem)
      obtain ⟨before, sh, after, hsplit, hsh, -⟩ := (hlast id h).1 hh
      exact ⟨sh, by rw [hsplit]; simp, AList.lookup_isSome.1 (by rw [hsh]; rfl)⟩
    · rintro ⟨sh, hmem, hid⟩
      apply AList.lookup_isSome.1
      rw [hlook' id]
      cases hf : (files.filterMap (decodedShard env store)).reverse.findSome?
          (fun sh => sh.lookup id) with
      | some h => rfl
      | none =>
        have := List.findSome?_eq_none_iff.1 hf sh (List.mem_reverse.2 hmem)
        exact absurd (AList.lookup_eq_none.1 this) (fun hn => hn hid)
  · intro hdis files' hperm id
    have hall' : ∀ name ∈ files', decodedShard env store name ≠ none :=
      fun name hn => hall name (hperm.mem_iff.1 hn)
    obtain ⟨m', hm', hlk'⟩ := mergeFiles_lookup env store files' ∅ hall'
    rw [(loadHistoryIntoPodded_idhp env files' store poddedURL limit m' hlimit hm').2]
    have hshards : (files'.filterMap (decodedShard env store)).Perm
        (files.filterMap (decodedShard env store)) := hperm.filterMap _
    have hdis' : (files'.filterMap (decodedShard env store)).Pairwise
        (fun a b => ∀ i, i ∈ a → i ∉ b) :=
      (hshards.pairwise_iff (fun hab i hib hia => hab i hia hib)).2 hdis
    apply Option.ext
    intro h
    rw [Option.mem_def, Option.mem_def, hlook' id, hlk' id]
    simp only [AList.lookup_empty, Option.or_none]
    rw [lookup_last_of_disjoint _ id h hdis, lookup_last_of_disjoint _ id h hdis']
    constructor
    · rintro ⟨sh, hmem, hsh⟩
      exact ⟨sh, hshards.mem_iff.1 hmem, hsh⟩
    · rintro ⟨sh, hmem, hsh⟩
      exact ⟨sh, hshards.mem_iff.2 hmem, hsh⟩

/-! ### Dispatch -/

/-- No wrap-around inside the range of `int`. -/
theorem wrapInt_of_bounds (x : Int) (h0 : -9223372036854775808 ≤ x)
    (h1 : x < 9223372036854775808) : wrapInt x = x := by
  unfold wrapInt
  omega

/-- The count of a code after an assignment to `responseCodes[code]`. -/
theorem tally_insert (rc : ResponseCodes) (code c v : Int) :
    tally (rc.insert code v) c = if c = code then v else tally rc c := by
  unfold tally
  by_cases h : c = code
  · subst h
    simp [AList.lookup_insert]
  · simp [AList.lookup_insert_ne h, h]

/-- Erasing a key takes its value out of the sum of the values. -/
theorem sum_kerase (a : Int) :
    ∀ l : List (Sigma fun _ : Int => Int),
      ((l.kerase a).map (fun e => e.2)).sum + (l.dlookup a).getD 0 = (l.map (fun e => e.2)).sum
  | [] => by simp
  | ⟨k, x⟩ :: l => by
    by_cases h : a = k
    · subst h
      simp [List.kerase_cons_eq, List.dlookup_cons_eq, add_comm]
    · rw [List.kerase_cons_ne h, List.dlookup_cons_ne l _ h, List.map_cons, List.map_cons,
        List.sum_cons, List.sum_cons, add_assoc, sum_kerase a l]

/-- The sum of the counts after an assignment to `responseCodes[code]`. -/
theorem valuesSum_insert (rc : ResponseCodes) (code v : Int) :
    valuesSum (rc.insert code v) = valuesSum rc - tally rc code + v := by
  have h := sum_kerase code rc.entries
  have hl : AList.lookup code rc = List.dlookup code rc.entries := rfl
  unfold valuesSum tally
  rw [AList.insert_entries, hl]
  simp only [List.map_cons, List.sum_cons]
  omega

/-- A map of records has at most 2^32 entries: its keys are distinct values of
`int32`. -/
theorem shard_length_le (m : Shard) : m.entries.length ≤ 4294967296 := by
  have hnd : (m.keys.map Subtype.val).Nodup := m.keys_nodup.map Subtype.val_injective
  have hsub : (m.keys.map Subtype.val).toFinset ⊆
      Finset.Ico (-2147483648 : Int) 2147483648 := by
    intro x hx
    rw [List.mem_toFinset, List.mem_map] at hx
    obtain ⟨i, -, rfl⟩ := hx
    exact Finset.mem_Ico.2 i.2
  have hcard := Finset.card_le_card hsub
  rw [List.toFinset_card_of_nodup hnd, List.length_map, Int.card_Ico] at hcard
  have hlen : m.keys.length = m.entries.length := by simp [AList.keys, List.keys]
  rw [hlen] at hcard
  simpa using hcard

/-- The dispatch loop over a list of records, from a state whose counts cannot
overflow during the loop: every count grows by the number of records answered
with its code, the sum of the counts and the bar grow by the number of records
answered with a status code, and every record is posted. -/
theorem dispatch_foldl (env : LoadEnv) (poddedURL : String) :
    ∀ (l : List (Sigma fun _ : RecordId => String)) (st : Dispatch),
      (∀ c, 0 ≤ tally st.responseCodes c ∧
        tally st.responseCodes c + l.length < 9223372036854775808) →
      (∀ c, tally (l.foldl (dispatchRecord env poddedURL) st).responseCodes c =
        tally st.responseCodes c +
          l.countP (fun e => decide (env.post poddedURL e.1 e.2 = .status c))) ∧
      valuesSum (l.foldl (dispatchRecord env poddedURL) st).responseCodes =
        valuesSum st.responseCodes + l.countP (tallied env poddedURL) ∧
      (l.foldl (dispatchRecord env poddedURL) st).increments =
        st.increments + l.countP (tallied env poddedURL) ∧
      (l.foldl (dispatchRecord env poddedURL) st).posts =
        st.posts ++ l.map (fun e => (e.1, e.2))
  | [], st, _ => by simp
  | e :: l, st, hb => by
    rw [List.foldl_cons]
    cases hp : env.post poddedURL e.1 e.2 with
    | networkError cause =>
      have hst : dispatchRecord env poddedURL st e
          = { st with posts := st.posts ++ [(e.1, e.2)] } := by
        unfold dispatchRecord
        rw [hp]
      have hb' : ∀ c, 0 ≤ tally (dispatchRecord env poddedURL st e).responseCodes c ∧
          tally (dispatchRecord env poddedURL st e).responseCodes c + l.length
            < 9223372036854775808 := by
        intro c
        rw [hst]
        show 0 ≤ tally st.responseCodes c ∧
          tally st.responseCodes c + l.length < 9223372036854775808
        have := hb c
        simp only [List.length_cons, Nat.cast_add, Nat.cast_one] at this
        exact ⟨this.1, by omega⟩
      obtain ⟨h1, h2, h3, h4⟩ := dispatch_foldl env poddedURL l _ hb'
      rw [hst] at h1 h2 h3 h4
      refine ⟨fun c => ?_, ?_, ?_, ?_⟩
      · rw [hst, h1 c, List.countP_cons_of_neg]
        simp [hp]
      · rw [hst, h2, List.countP_cons_of_neg]
        simp [tallied, hp]
      · rw [hst, h3, List.countP_cons_of_neg]
        simp [tallied, hp]
      · rw [hst, h4]
        simp
    | status code =>
      have hcode := hb code
      simp only [List.length_cons, Nat.cast_add, Nat.cast_one] at hcode
      have hwrap : wrapInt (tally st.responseCodes code + 1) = tally st.responseCodes code + 1 :=
        wrapInt_of_bounds _ (by omega) (by omega)
      have hst : dispatchRecord env poddedURL st e
          = { posts := st.posts ++ [(e.1, e.2)]
              responseCodes := st.responseCodes.insert code (tally st.responseCodes code + 1)
              increments := st.increments + 1 } := by
        unfold dispatchRecord
        rw [hp]
        simp only [hwrap]
      have hb' : ∀ c, 0 ≤ tally (dispatchRecord env poddedURL st e).responseCodes c ∧
          tally (dispatchRecord env poddedURL st e).responseCodes c + l.length
            < 9223372036854775808 := by
        intro c
        rw [hst]
        simp only [tally_insert]
        have := hb c
        simp only [List.length_cons, Nat.cast_add, Nat.cast_one] at this
        by_cases hc : c = code
        · subst hc
          simp only [if_true]
          omega
        · simp only [hc, if_false]
          omega
      obtain ⟨h1, h2, h3, h4⟩ := dispatch_foldl env poddedURL l _ hb'
      rw [hst] at h1 h2 h3 h4
      simp only [tally_insert, valuesSum_insert] at h1 h2 h3 h4
      refine ⟨fun c => ?_, ?_, ?_, ?_⟩
      · rw [hst, h1 c, List.countP_cons]
        by_cases hc : c = code
        · subst hc
          simp only [hp, decide_True, if_true, Nat.cast_add, Nat.cast_one]
          omega
        · have hc' : ¬ code = c := fun h => hc h.symm
          simp [hp, hc, hc']
      · rw [hst, h2, List.countP_cons]
        simp only [tallied, hp, if_true, Nat.cast_add, Nat.cast_one]
        omega
      · rw [hst, h3, List.countP_cons]
        simp only [tallied, hp, if_true]
        omega
      · rw [hst, h4]
        simp

/-- The footer of the table is the sum of the rows when no row is negative and
the sum fits in an `int`. -/
theorem sumRows_eq (rows : List (Sigma fun _ : Int => Int))
    (hpos : ∀ e ∈ rows, 0 ≤ e.2)
    (hlt : (rows.map (fun e => e.2)).sum < 9223372036854775808) :
    sumRows rows = (rows.map (fun e => e.2)).sum := by
  have key : ∀ (l : List (Sigma fun _ : Int => Int)) (acc : Int), 0 ≤ acc →
      (∀ e ∈ l, 0 ≤ e.2) → acc + (l.map (fun e => e.2)).sum < 9223372036854775808 →
      l.foldl (fun rs e => wrapInt (rs + e.2)) acc = acc + (l.map (fun e => e.2)).sum := by
    intro l
    induction l with
    | nil => intro acc _ _ _; simp
    | cons e l ih =>
      intro acc hacc hl hsum
      have he : 0 ≤ e.2 := hl e (List.mem_cons_self _ _)
      have hrest : 0 ≤ (l.map (fun e => e.2)).sum :=
        List.sum_nonneg (by
          intro x hx
          obtain ⟨y, hy, rfl⟩ := List.mem_map.1 hx
          exact hl y (List.mem_cons_of_mem _ hy))
      simp only [List.map_cons, List.sum_cons] at hsum
      rw [List.foldl_cons, wrapInt_of_bounds _ (by omega) (by omega),
        ih (acc + e.2) (by omega) (fun x hx => hl x (List.mem_cons_of_mem _ hx)) (by omega)]
      simp only [List.map_cons, List.sum_cons]
      omega
  have := key rows 0 (le_refl 0) hpos (by simpa using hlt)
  simpa [sumRows] using this

/-- The dispatch loop over a record space: every count is the number of records
answered with its code, the sum of the counts and the number of increments of
the bar are the number of records answered with a status code, and the records
posted are the records of the space. -/
theorem dispatchAll_spec (env : LoadEnv) (poddedURL : String) (idhp : Shard) :
    (∀ c, tally (dispatchAll env poddedURL idhp).responseCodes c =
      idhp.entries.countP (fun e => decide (env.post poddedURL e.1 e.2 = .status c))) ∧
    valuesSum (dispatchAll env poddedURL idhp).responseCodes =
      idhp.entries.countP (tallied env poddedURL) ∧
    (dispatchAll env poddedURL idhp).increments = idhp.entries.countP (tallied env poddedURL) ∧
    (dispatchAll env poddedURL idhp).posts.Perm (idhp.entries.map (fun e => (e.1, e.2))) := by
  have hperm := env.rangeShard_perm idhp
  have hlen : (env.rangeShard idhp).length ≤ 4294967296 := by
    rw [hperm.length_eq]
    exact shard_length_le idhp
  have hb : ∀ c, 0 ≤ tally (⟨[], ∅, 0⟩ : Dispatch).responseCodes c ∧
      tally (⟨[], ∅, 0⟩ : Dispatch).responseCodes c + (env.rangeShard idhp).length
        < 9223372036854775808 := by
    intro c
    have h0 : tally (∅ : ResponseCodes) c = 0 := rfl
    show 0 ≤ tally (∅ : ResponseCodes) c ∧ tally (∅ : ResponseCodes) c + _ < _
    rw [h0]
    omega
  obtain ⟨h1, h2, h3, h4⟩ := dispatch_foldl env poddedURL (env.rangeShard idhp) ⟨[], ∅, 0⟩ hb
  have h0 : ∀ c, tally (∅ : ResponseCodes) c = 0 := fun _ => rfl
  have hv0 : valuesSum (∅ : ResponseCodes) = 0 := rfl
  refine ⟨fun c => ?_, ?_, ?_, ?_⟩
  · rw [dispatchAll, h1 c, hperm.countP_eq]
    show tally (∅ : ResponseCodes) c + _ = _
    rw [h0, zero_add]
  · rw [dispatchAll, h2, hperm.countP_eq]
    show valuesSum (∅ : ResponseCodes) + _ = _
    rw [hv0, zero_add]
  · rw [dispatchAll, h3, hperm.countP_eq]
    show 0 + _ = _
    rw [zero_add]
  · rw [dispatchAll, h4]
    show ([] ++ _).Perm _
    rw [List.nil_append]
    exact hperm.map _

/-- A run that returns: its fields in terms of its record space. -/
theorem loadHistoryIntoPodded_returned (env : LoadEnv) (readDir : Except GoError (List String))
    (store : Store) (poddedURL : String) (limit : Int)
    (hret : (loadHistoryIntoPodded env readDir store poddedURL limit).exit = .returned) :
    ∃ idhp, loadHistoryIntoPodded env readDir store poddedURL limit =
      ⟨.returned, limit, idhp, (dispatchAll env poddedURL idhp).posts, idhp.entries.length,
        (dispatchAll env poddedURL idhp).increments,
        (dispatchAll env poddedURL idhp).responseCodes,
        env.rangeCodes (dispatchAll env poddedURL idhp).responseCodes,
        sumRows (env.rangeCodes (dispatchAll env poddedURL idhp).responseCodes)⟩ := by
  unfold loadHistoryIntoPodded at hret ⊢
  by_cases hlimit : limit = 0
  · rw [if_pos hlimit] at hret
    cases hret
  · rw [if_neg hlimit] at hret ⊢
    cases readDir with
    | error err => cases hret
    | ok files =>
      simp only at hret ⊢
      cases hm : mergeFiles env store files ∅ with
      | fatal name => rw [hm] at hret; cases hret
      | merged idhp => exact ⟨idhp, rfl⟩

/-- C7: in a run of `loadHistoryIntoPodded` that reaches its end, the count
tallied for each status code is the number of records of the merged record
space whose POST returned that code, the total row is the sum of the tallied
counts, the sum is at most the number of records, and it is that number exactly
when no POST ended in a network error. -/
theorem loadHistoryIntoPodded_tally (env : LoadEnv) (readDir : Except GoError (List String))
    (store : Store) (poddedURL : String) (limit : Int)
    (hret : (loadHistoryIntoPodded env readDir store poddedURL limit).exit = .returned) :
    (∀ c, tally (loadHistoryIntoPodded env readDir store poddedURL limit).responseCodes c =
      (loadHistoryIntoPodded env readDir store poddedURL limit).idhp.entries.countP
        (fun e => decide (env.post poddedURL e.1 e.2 = .status c))) ∧
    (loadHistoryIntoPodded env readDir store poddedURL limit).total =
      valuesSum (loadHistoryIntoPodded env readDir store poddedURL limit).responseCodes ∧
    valuesSum (loadHistoryIntoPodded env readDir store poddedURL limit).responseCodes ≤
      (loadHistoryIntoPodded env readDir store poddedURL limit).idhp.entries.length ∧
    (valuesSum (loadHistoryIntoPodded env readDir store poddedURL limit).responseCodes =
        (loadHistoryIntoPodded env readDir store poddedURL limit).idhp.entries.length ↔
      ∀ e ∈ (loadHistoryIntoPodded env readDir store poddedURL limit).idhp.entries,
        ∀ cause, env.post poddedURL e.1 e.2 ≠ .networkError cause) := by
  obtain ⟨idhp, hrun⟩ := loadHistoryIntoPodded_returned env readDir store poddedURL limit hret
  rw [hrun]
  obtain ⟨h1, h2, -, -⟩ := dispatchAll_spec env poddedURL idhp
  have hle : idhp.entries.countP (tallied env poddedURL) ≤ idhp.entries.length :=
    List.countP_le_length _
  have hlen := shard_length_le idhp
  refine ⟨h1, ?_, ?_, ?_⟩
  · show sumRows (env.rangeCodes (dispatchAll env poddedURL idhp).responseCodes) = _
    have hperm := env.rangeCodes_perm (dispatchAll env poddedURL idhp).responseCodes
    have hsum : ((env.rangeCodes (dispatchAll env poddedURL idhp).responseCodes).map
        (fun e => e.2)).sum = valuesSum (dispatchAll env poddedURL idhp).responseCodes :=
      (hperm.map _).sum_eq
    rw [sumRows_eq, hsum]
    · intro e he
      have hmem : e ∈ (dispatchAll env poddedURL idhp).responseCodes.entries :=
        hperm.mem_iff.1 he
      have hlook : (dispatchAll env poddedURL idhp).responseCodes.lookup e.1 = some e.2 :=
        AList.mem_lookup_iff.2 hmem
      have ht : tally (dispatchAll env poddedURL idhp).responseCodes e.1 = e.2 := by
        unfold tally
        rw [hlook]
        rfl
      rw [← ht, h1]
      exact Int.natCast_nonneg _
    · rw [hsum, h2]
      omega
  · show valuesSum (dispatchAll env poddedURL idhp).responseCodes ≤ (idhp.entries.length : Int)
    rw [h2]
    exact_mod_cast hle
  · show valuesSum (dispatchAll env poddedURL idhp).responseCodes = (idhp.entries.length : Int) ↔
      ∀ e ∈ idhp.entries, ∀ cause, env.post poddedURL e.1 e.2 ≠ .networkError cause
    rw [h2, Nat.cast_inj, List.countP_eq_length]
    constructor
    · intro h e he cause hc
      have := h e he
      simp [tallied, hc] at this
    · intro h e he
      unfold tallied
      cases hp : env.post poddedURL e.1 e.2 with
      | networkError cause => exact absurd hp (h e he cause)
      | status code => rfl

/-- Witness of `loadHistoryIntoPodded_corrupt_file_fatal`: a storage root with
two shards and a file that is not JSON. -/
theorem loadHistoryIntoPodded_corrupt_file_fatal_witness :
    (∃ name ∈ ["20200101.json", "20200102.json", "notes.txt"],
        decodedShard (sampleLoadEnv samplePost) sampleStore name = none) ∧
      (∃ name, (loadHistoryIntoPodded (sampleLoadEnv samplePost)
        (.ok ["20200101.json", "20200102.json", "notes.txt"]) sampleStore
        "http://podded.local" 1).exit = .fatal name) ∧
      (loadHistoryIntoPodded (sampleLoadEnv samplePost)
        (.ok ["20200101.json", "20200102.json", "notes.txt"]) sampleStore
        "http://podded.local" 1).posts = [] :=
  ⟨⟨"notes.txt", by simp, by rfl⟩,
    loadHistoryIntoPodded_corrupt_file_fatal (sampleLoadEnv samplePost)
      ["20200101.json", "20200102.json", "notes.txt"] sampleStore "http://podded.local" 1
      (by decide) ⟨"notes.txt", by simp, by rfl⟩⟩

/-- The two shards of `sampleStore` decode. -/
theorem sampleStore_decodes :
    ∀ name ∈ ["20200101.json", "20200102.json"],
      decodedShard (sampleLoadEnv samplePost) sampleStore name ≠ none := by
  intro name hmem
  simp only [List.mem_cons, List.mem_singleton, List.not_mem_nil, or_false] at hmem
  rcases hmem with rfl | rfl
  · exact fun h => Option.noConfusion (show some _ = none from h)
  · exact fun h => Option.noConfusion (show some _ = none from h)

/-- Witness of `loadHistoryIntoPodded_merge_union`: the two shards of
`sampleStore`. -/
theorem loadHistoryIntoPodded_merge_union_witness :
    (∀ name ∈ ["20200101.json", "20200102.json"],
      decodedShard (sampleLoadEnv samplePost) sampleStore name ≠ none) ∧
    ((loadHistoryIntoPodded (sampleLoadEnv samplePost) (.ok ["20200101.json", "20200102.json"])
      sampleStore "http://podded.local" 1).exit = .returned ∧
    (∀ id, id ∈ (loadHistoryIntoPodded (sampleLoadEnv samplePost)
        (.ok ["20200101.json", "20200102.json"]) sampleStore "http://podded.local" 1).idhp ↔
      ∃ sh ∈ ["20200101.json", "20200102.json"].filterMap
        (decodedShard (sampleLoadEnv samplePost) sampleStore), id ∈ sh) ∧
    (∀ id h, (loadHistoryIntoPodded (sampleLoadEnv samplePost)
        (.ok ["20200101.json", "20200102.json"]) sampleStore "http://podded.local" 1).idhp.lookup
          id = some h ↔
      ∃ before sh after, ["20200101.json", "20200102.json"].filterMap
          (decodedShard (sampleLoadEnv samplePost) sampleStore) = before ++ sh :: after ∧
        sh.lookup id = some h ∧ ∀ later ∈ after, id ∉ later) ∧
    ((["20200101.json", "20200102.json"].filterMap
        (decodedShard (sampleLoadEnv samplePost) sampleStore)).Pairwise
        (fun a b => ∀ i, i ∈ a → i ∉ b) →
      ∀ files', files'.Perm ["20200101.json", "20200102.json"] → ∀ id,
        (loadHistoryIntoPodded (sampleLoadEnv samplePost) (.ok files') sampleStore
          "http://podded.local" 1).idhp.lookup id
          = (loadHistoryIntoPodded (sampleLoadEnv samplePost)
            (.ok ["20200101.json", "20200102.json"]) sampleStore
            "http://podded.local" 1).idhp.lookup id)) :=
  ⟨sampleStore_decodes,
    loadHistoryIntoPodded_merge_union (sampleLoadEnv samplePost)
      ["20200101.json", "20200102.json"] sampleStore "http://podded.local" 1
      (by decide) sampleStore_decodes⟩

/-- The merge of the two shards of `sampleStore`: both records, in either
order of the files. -/
theorem sampleStore_merge :
    (loadHistoryIntoPodded (sampleLoadEnv samplePost) (.ok ["20200101.json", "20200102.json"])
        sampleStore "http://podded.local" 1).idhp.lookup ⟨1, by decide⟩ = some "a" ∧
      (loadHistoryIntoPodded (sampleLoadEnv samplePost) (.ok ["20200101.json", "20200102.json"])
        sampleStore "http://podded.local" 1).idhp.lookup ⟨2, by decide⟩ = some "b" ∧
      (loadHistoryIntoPodded (sampleLoadEnv samplePost) (.ok ["20200102.json", "20200101.json"])
        sampleStore "http://podded.local" 1).idhp.lookup ⟨1, by decide⟩ = some "a" ∧
      (loadHistoryIntoPodded (sampleLoadEnv samplePost) (.ok ["20200101.json", "20200102.json"])
        sampleStore "http://podded.local" 1).barTotal = 2 :=
  ⟨by rfl, by rfl, by rfl, by rfl⟩

/-- Witness of `loadHistoryIntoPodded_tally`: two records, answered with 200
and with 500. -/
theorem loadHistoryIntoPodded_tally_witness :
    sampleRun.exit = .returned ∧
    (∀ c, tally sampleRun.responseCodes c =
      sampleRun.idhp.entries.countP
        (fun e => decide ((sampleLoadEnv samplePost).post "http://podded.local" e.1 e.2
          = .status c))) ∧
    sampleRun.total = valuesSum sampleRun.responseCodes ∧
    valuesSum sampleRun.responseCodes ≤ sampleRun.idhp.entries.length ∧
    (valuesSum sampleRun.responseCodes = sampleRun.idhp.entries.length ↔
      ∀ e ∈ sampleRun.idhp.entries,
        ∀ cause, (sampleLoadEnv samplePost).post "http://podded.local" e.1 e.2
          ≠ .networkError cause) :=
  ⟨by rfl,
    loadHistoryIntoPodded_tally (sampleLoadEnv samplePost)
      (.ok ["20200101.json", "20200102.json"]) sampleStore "http://podded.local" 1 (by rfl)⟩

/-- The scenario of the tally: the two records are answered with 200 and 500,
each code is counted once and the total row is 2. -/
theorem sampleRun_tally :
    tally sampleRun.responseCodes 200 = 1 ∧ tally sampleRun.responseCodes 500 = 1 ∧
      sampleRun.total = 2 ∧ sampleRun.increments = 2 :=
  ⟨by rfl, by rfl, by rfl, by rfl⟩

/-- C8, the code at the failing input: one record whose POST ends in a network
error.  The record is posted, the bar was created for one record, and it has
not advanced when the loop ends. -/
theorem loadHistoryIntoPodded_bar_skips_failed_post :
    (loadHistoryIntoPodded (sampleLoadEnv (fun _ _ _ => .networkError "timeout"))
        (.ok ["20200101.json"]) sampleStore "http://podded.local" 1).exit = .returned ∧
      (loadHistoryIntoPodded (sampleLoadEnv (fun _ _ _ => .networkError "timeout"))
        (.ok ["20200101.json"]) sampleStore "http://podded.local" 1).idhp.entries.length = 1 ∧
      (loadHistoryIntoPodded (sampleLoadEnv (fun _ _ _ => .networkError "timeout"))
        (.ok ["20200101.json"]) sampleStore "http://podded.local" 1).posts
          = [(⟨1, by decide⟩, "a")] ∧
      (loadHistoryIntoPodded (sampleLoadEnv (fun _ _ _ => .networkError "timeout"))
        (.ok ["20200101.json"]) sampleStore "http://podded.local" 1).barTotal = 1 ∧
      (loadHistoryIntoPodded (sampleLoadEnv (fun _ _ _ => .networkError "timeout"))
        (.ok ["20200101.json"]) sampleStore "http://podded.local" 1).increments = 0 :=
  ⟨by rfl, by rfl, by rfl, by rfl, by rfl⟩

/-! ### Command line -/

/-- C10, the code at the failing input: in mode `load` with a URL that parses
and a fourth argument that `strconv.Atoi` rejects, `main` logs the failure and
goes on to call `loadHistoryIntoPodded`, with the value that `Atoi` returned
with its error as the limit. -/
theorem main_load_with_rejected_limit (parseRequestURI : String → Option String)
    (program raw u arg : String) (hurl : parseRequestURI raw = some u)
    (hbad : (strconvAtoi arg).2 = true) :
    main parseRequestURI [program, "load", raw, arg] = .load u (strconvAtoi arg).1 true := by
  unfold main
  simp [hurl, hbad]

/-- Witness of `main_load_with_rejected_limit`: the limit `abc`; the
dispatcher is called with the limit 0. -/
theorem main_load_with_rejected_limit_witness :
    (strconvAtoi "abc") = (0, true) ∧
      main (fun raw => some raw) ["zkill_history", "load", "http://podded.local", "abc"]
        = .load "http://podded.local" (strconvAtoi "abc").1 true :=
  ⟨by decide,
    main_load_with_rejected_limit (fun raw => some raw) "zkill_history" "http://podded.local"
      "http://podded.local" "abc" rfl (by decide)⟩

/-- The shard path is the cleaned join of the storage root and the file name:
different keys may have one path. -/
theorem shardPath_samples :
    shardPath "a" = "json/a.json" ∧ shardPath "./a" = "json/a.json" ∧
      shardPath "x/../a" = "json/a.json" ∧ shardPath "../../a" = "../a.json" ∧
      filepathClean "/../a//b/./c/.." = "/a/b" ∧ filepathClean "a/../.." = ".." := by
  decide

/-- Two shard paths that differ as strings and name one file from the working
directory `/work`; the unit of the one key overwrites the complete shard of the
other. -/
theorem climbTotals_one_file :
    shardPath "../../work/json/a" = "../work/json/a.json" ∧
      shardPath "a" = "json/a.json" ∧
      sampleResolve (shardPath "../../work/json/a") = sampleResolve (shardPath "a") ∧
      haveCorrectTotal sampleResolve sampleDecodeShard aliasStore "a" 1 = true ∧
      (downloadTotalHistory (sampleEnv climbTotalsDoc climbTotals [123, 125]) [] aliasStore).store
        (sampleResolve (shardPath "a")) = some { content := [123, 125], readable := true } ∧
      (downloadTotalHistory (sampleEnv climbTotalsDoc climbTotals [123, 125])
        [] aliasStore).results.map Prod.fst = ["../../work/json/a"] :=
  ⟨by decide, by decide, by decide, by rfl, by rfl, by rfl⟩

/-- Values of `strconv.Atoi`. -/
theorem strconvAtoi_samples :
    strconvAtoi "10" = (10, false) ∧ strconvAtoi "-7" = (-7, false) ∧
      strconvAtoi "+7" = (7, false) ∧ strconvAtoi "" = (0, true) ∧
      strconvAtoi "-" = (0, true) ∧ strconvAtoi "1_0" = (0, true) ∧
      strconvAtoi "9223372036854775808" = (9223372036854775807, true) ∧
      strconvAtoi "-9223372036854775808" = (-9223372036854775808, false) := by
  decide

/-- Runs of `main` in which the arguments are accepted or refused as the usage
says. -/
theorem main_samples :
    main (fun r => some r) ["z"] = .usage ∧
      main (fun r => some r) ["z", "sync"] = .usage ∧
      main (fun r => some r) ["z", "download"] = .download ∧
      main (fun r => some r) ["z", "load"] = .needUrl ∧
      main (fun _ => none) ["z", "load", "podded"] = .badUrl ∧
      main (fun r => some r) ["z", "load", "http://x"] = .load "http://x" 1 false ∧
      main (fun r => some r) ["z", "load", "http://x", "5"] = .load "http://x" 5 false ∧
      main (fun r => some r) ["z", "load", "http://x", "5", "y"] = .load "http://x" 1 false := by
  decide

end ZkillHistory
